import Mathlib

/-!
Verification of the combinatorial core of a 2-D geometric constraint solver
(cluster algebra, configurations, constraint graph, method graph) against its
natural-language specification.

The development shallowly embeds the Python sources:
  * `solver/relation.py`          — `Distance` / `Angle` value objects,
  * `solver/geometric/cluster.py` — `Rigid` / `Hedgehog` / `Balloon` clusters,
  * `solver/geometric/constraint.py` — constraints and the constraint graph,
  * `solver/method.py`            — the dataflow method graph,
  * `solver/geometric/configuration.py` — configurations up to rigid motion.

Python variables are `ℕ`, values are `Int`, coordinates are `ℝ`.  Fallible
Python code (statements that raise `NameError` or `TypeError`) is embedded in
`Except PyError`.  The generic digraph substrate (`solver/graph.py`) and the
2-D geometry library (`solver/geometry.py`) are not part of the sources; where
they are needed they are modelled from the specification's interface
description and each such definition is marked `Modelled from the spec`.
-/

/-- Kinds of Python runtime errors raised by the embedded code paths. -/
inductive PyError
  | nameError
  | typeError
  deriving DecidableEq

/-! ## Relations (`solver/relation.py`)

`PointRelation.__init__` stores `self.points = list(points)`, and the
`Distance` / `Angle` constructors pass `[np.array(a), np.array(b), ...]`:
every stored point is wrapped in a numpy array.  Numpy arrays are not
hashable, so `hash(frozenset(self.points))` (line 38) and
`frozenset(self.points) == frozenset(other.points)` (lines 62 and 93) raise
`TypeError: unhashable type: 'numpy.ndarray'` as soon as the `frozenset` is
built. -/

/-- Wrapper recording that a stored point went through `np.array(...)`
(`relation.py` lines 57 and 86).  The wrapped object compares elementwise
(0-d array equality mirrors equality of the underlying point) but is not
hashable. -/
structure NpArr where
  val : ℕ
  deriving DecidableEq

/-- Relation value objects: `Distance(a, b)` stores `[np.array(a), np.array(b)]`,
`Angle(a, b, c)` stores `[np.array(a), np.array(b), np.array(c)]` with `b` the
apex. -/
inductive PRel
  | distance (a b : NpArr)
  | angle (a b c : NpArr)
  deriving DecidableEq

/-- Embeds `PointRelation.__hash__` (`relation.py` lines 31-38):
`hash(frozenset(self.points))`.  Building the `frozenset` hashes each stored
point; every stored point is an `np.ndarray`, which is unhashable, so the call
raises `TypeError` for every `Distance` and every `Angle`. -/
def PRel.hash : PRel → Except PyError Int :=
  fun _ => .error .typeError

/-- Embeds `Distance.__eq__` (lines 59-65) and `Angle.__eq__` (lines 88-96).
`Distance.__eq__` against another `Distance` evaluates
`frozenset(self.points) == frozenset(other.points)`, which raises `TypeError`
(ndarray elements are unhashable).  `Angle.__eq__` first compares the apexes
(`self.points[1] == other.points[1]`, a falsy 0-d result when they differ, so
the `and` short-circuits to `False`); when the apexes agree it proceeds to the
`frozenset` comparison and raises `TypeError`.  Mixed kinds fail the
`isinstance` test and return `False`. -/
def PRel.eq : PRel → PRel → Except PyError Bool
  | .distance _ _, .distance _ _ => .error .typeError
  | .angle _ b _, .angle _ b' _ =>
      if b.val = b'.val then .error .typeError else .ok false
  | _, _ => .ok false

/-! ## Cluster algebra (`solver/geometric/cluster.py`) -/

/-- The three cluster variants.  `Rigid(vars)` keeps the variable set;
`Hedgehog(c_var, x_vars)` keeps the central variable and the spoke set
(`cluster.py` lines 292-314); `Balloon(vars)` keeps the variable set.  The
constructor guards (`Hedgehog` wants at least two spokes, `Balloon` at least
three variables) are never violated by `intersection`, whose guards are
strictly stronger. -/
inductive Cluster
  | rigid (vars : Finset ℕ)
  | hedgehog (c_var : ℕ) (x_vars : Finset ℕ)
  | balloon (vars : Finset ℕ)
  deriving DecidableEq

/-- Embeds the `vars` attribute: `Cluster.__init__` stores the variable set;
`Hedgehog.__init__` calls it with `x_vars | set([c_var])` (line 314). -/
def Cluster.vars : Cluster → Finset ℕ
  | .rigid s => s
  | .hedgehog c x => x ∪ {c}
  | .balloon s => s

/-- Embeds `Rigid.intersect_hedgehog` (lines 161-170): `x_vars = shared - set([c])`;
returns `Hedgehog(c, x_vars)` when the hedgehog's centre lies in the rigid's
variables and at least two other shared variables remain, else `None`.
`rigidVars` is `self.vars` of the rigid. -/
def intersectRH (rigidVars shared : Finset ℕ) (c : ℕ) : Option Cluster :=
  if c ∈ rigidVars ∧ 2 ≤ (shared.erase c).card then
    some (.hedgehog c (shared.erase c))
  else
    none

/-- Embeds `Hedgehog.intersect_hedgehog` (lines 332-341): the hedgehogs merge
into `Hedgehog(c, x ∩ x')` when the centres agree and the spoke sets share at
least two variables, else `None`. -/
def intersectHH (c : ℕ) (x : Finset ℕ) (c' : ℕ) (x' : Finset ℕ) : Option Cluster :=
  if c = c' ∧ 2 ≤ (x ∩ x').card then
    some (.hedgehog c (x ∩ x'))
  else
    none

/-- Embeds `Hedgehog.intersect_balloon` (lines 343-353): `x_vars = shared - set([c])`;
returns `Hedgehog(c, x_vars)` when the hedgehog's centre lies in the balloon
and at least two other shared variables remain, else `None`. -/
def intersectHB (c : ℕ) (shared balloonVars : Finset ℕ) : Option Cluster :=
  if c ∈ balloonVars ∧ 2 ≤ (shared.erase c).card then
    some (.hedgehog c (shared.erase c))
  else
    none

/-- Embeds `Balloon.intersect_rigid` (lines 418-424): `None` when fewer than
three variables are shared, else `Balloon(shared)`. -/
def intersectBR (shared : Finset ℕ) : Option Cluster :=
  if shared.card < 3 then none else some (.balloon shared)

/-- Embeds `Cluster.intersection` (`cluster.py` lines 52-81) together with the
double-dispatch `intersect_rigid` / `intersect_hedgehog` / `intersect_balloon`
methods of the three variants.  `shared = self.vars & other.vars`; fewer than
two shared variables yields `None`; otherwise the variant pair decides:

  * `Rigid`/`Rigid` → `Rigid(shared)` (line 157-159);
  * `Rigid`/`Hedgehog` → `Rigid.intersect_hedgehog` in either order
    (`Hedgehog.intersect_rigid`, lines 328-330, swaps the arguments back);
  * anything/`Balloon` involving a `Rigid` → `Balloon.intersect_rigid`
    (`Rigid.intersect_balloon`, lines 172-174, delegates);
  * `Hedgehog`/`Hedgehog` → `Hedgehog.intersect_hedgehog`;
  * `Hedgehog`/`Balloon` → `Hedgehog.intersect_balloon`
    (`Balloon.intersect_hedgehog`, lines 426-428, delegates);
  * `Balloon`/`Balloon` → `Balloon.intersect_balloon` (lines 430-432), which
    applies the rigid rule to `shared`. -/
def Cluster.intersection (a b : Cluster) : Option Cluster :=
  let shared := a.vars ∩ b.vars
  if shared.card < 2 then
    none
  else
    match a, b with
    | .rigid _, .rigid _ => some (.rigid shared)
    | .rigid s, .hedgehog c _ => intersectRH s shared c
    | .rigid _, .balloon _ => intersectBR shared
    | .hedgehog c _, .rigid _ => intersectRH b.vars shared c
    | .hedgehog c x, .hedgehog c' x' => intersectHH c x c' x'
    | .hedgehog c _, .balloon bs => intersectHB c shared bs
    | .balloon _, .rigid _ => intersectBR shared
    | .balloon s, .hedgehog c _ => intersectHB c shared s
    | .balloon _, .balloon _ => intersectBR shared

/-- Embeds `Cluster.over_constraints` (`cluster.py` lines 95-104).  Its body is
`return common_distances(self, other) | common_angles(self, other)`, but
`common_distances` and `common_angles` exist only as *methods* of `Cluster`;
no module-level bindings with those names exist in `cluster.py` (the module
imports only `abc`, `logging`, `binom` and the relation classes).  Python's
name resolution therefore raises `NameError` on the first operand before any
set is built, for every pair of clusters. -/
def Cluster.over_constraints (_a _b : Cluster) : Except PyError (Finset PRel) :=
  .error .nameError

/-- Embeds `n_angles` of the three variants.  `Rigid.n_angles` (lines 283-284)
is `int(binom(len(self.vars), 3) * 3)`; `Balloon.n_angles` (lines 497-498) is
the same formula; `Hedgehog.n_angles` (lines 396-397) evaluates
`int(binomial(len(self.x_vars), 2))`, but the module imports the scipy
function under the name `binom` (line 7) and binds no `binomial` anywhere, so
the call raises `NameError`. -/
def Cluster.n_angles : Cluster → Except PyError ℕ
  | .rigid s => .ok (3 * s.card.choose 3)
  | .hedgehog _ _ => .error .nameError
  | .balloon s => .ok (3 * s.card.choose 3)

/-! ## Constraints and the constraint graph (`solver/geometric/constraint.py`) -/

/-- Constraint objects as the core uses them.  `PlusConstraint.__init__`
(lines 71-72) sets the `_variables` attribute, so attribute lookup of
`variables` on a `PlusConstraint` finds the inherited *method*
`Constraint.variables` (lines 36-52), which returns `list(self._variables)`.
`SelectionConstraint.__init__` (lines 84-87) instead sets
`self.variables = list(variables)`: an instance attribute named `variables`
holding a plain list.  All four concrete selection constraints
(`NotClockwiseConstraint`, `NotCounterClockwiseConstraint`,
`NotObtuseConstraint`, `NotAcuteConstraint`) reach that constructor through
`FunctionConstraint.__init__` (line 107). -/
inductive ConstraintObj
  | plus (a b c : ℕ)
  | selection (name : String) (vars : List ℕ)
  deriving DecidableEq

/-- Embeds `NotClockwiseConstraint(v1, v2, v3)` (constraint.py lines 128-146). -/
def notClockwiseConstraint (v1 v2 v3 : ℕ) : ConstraintObj :=
  .selection "NotClockwiseConstraint" [v1, v2, v3]

/-- Embeds `NotCounterClockwiseConstraint(v1, v2, v3)` (lines 148-166). -/
def notCounterClockwiseConstraint (v1 v2 v3 : ℕ) : ConstraintObj :=
  .selection "NotCounterClockwiseConstraint" [v1, v2, v3]

/-- Embeds `NotObtuseConstraint(v1, v2, v3)` (lines 168-185). -/
def notObtuseConstraint (v1 v2 v3 : ℕ) : ConstraintObj :=
  .selection "NotObtuseConstraint" [v1, v2, v3]

/-- Embeds `NotAcuteConstraint(v1, v2, v3)` (lines 187-204). -/
def notAcuteConstraint (v1 v2 v3 : ℕ) : ConstraintObj :=
  .selection "NotAcuteConstraint" [v1, v2, v3]

/-- Result of Python attribute lookup for the name `variables` on a constraint
object: either a plain data attribute (a list, which is not callable) from the
instance dictionary, or the bound class method `Constraint.variables`. -/
inductive PyAttrVal
  | dataList (l : List ℕ)
  | boundMethod (l : List ℕ)
  deriving DecidableEq

/-- Attribute lookup of `variables`.  On a `PlusConstraint` the instance
dictionary has no `variables` entry, so the class method is found and, when
called, returns `list(self._variables)`.  On any `SelectionConstraint` the
instance attribute set in `__init__` shadows the class method, so lookup
yields the stored list itself. -/
def lookupVariablesAttr : ConstraintObj → PyAttrVal
  | .plus a b c => .boundMethod [a, b, c]
  | .selection _ vs => .dataList vs

/-- Embeds the call expression `constraint.variables()`: calling the looked-up
attribute.  Calling a list raises `TypeError: 'list' object is not callable`;
calling the bound method returns the variable list. -/
def callVariables (c : ConstraintObj) : Except PyError (List ℕ) :=
  match lookupVariablesAttr c with
  | .dataList _ => .error .typeError
  | .boundMethod l => .ok l

/-- Embeds `ConstraintGraph` state (constraint.py lines 206-223): the
`_variables` dictionary keys, the `_constraints` dictionary keys (insertion
order), and the bipartite graph's variable-to-constraint edges. -/
structure CGraph where
  vars : Finset ℕ
  constraints : List ConstraintObj
  edges : List (ℕ × ConstraintObj)
  deriving DecidableEq

/-- The empty constraint graph produced by `ConstraintGraph()`. -/
def emptyCGraph : CGraph := ⟨∅, [], []⟩

/-- Embeds `ConstraintGraph.add_constraint` (lines 274-293).  An already-known
constraint is ignored.  Otherwise the constraint is first entered into the
`_constraints` dictionary and only then is `constraint.variables()` invoked;
if that call raises, the exception propagates with the dictionary entry
already made (the error payload carries the resulting state). -/
def CGraph.addConstraint (g : CGraph) (c : ConstraintObj) :
    Except (PyError × CGraph) CGraph :=
  if c ∈ g.constraints then
    .ok g
  else
    let g1 : CGraph := { g with constraints := g.constraints ++ [c] }
    match callVariables c with
    | .error e => .error (e, g1)
    | .ok vs =>
        .ok (vs.foldl
          (fun h v => { h with vars := insert v h.vars, edges := h.edges ++ [(v, c)] })
          g1)

/-! ## Method graph (`solver/method.py`)

Methods are identified by `id` (Python method objects hash by identity) and
carry ordered input and output variable lists.  The behaviour of
`method.execute` is supplied separately as a parameter `ex` mapping a method
and its input map to the returned output map (an association list), mirroring
the abstract `Method.execute` contract (method.py lines 25-35).

The digraph substrate `solver/graph.py` is not among the sources.  Modelled
from the spec (§6, graph container): its vertices here are the variables plus
the methods, its edges are exactly those inserted by `add_method`
(input → method and method → variable), so incoming neighbours of a variable
are the methods writing it, outgoing neighbours are the methods reading it,
and `path(a, a)` is non-empty exactly when a non-trivial directed cycle
passes through `a`; reachability is computed below by bounded closure
(`reachSet`). -/

/-- A method record: identity, ordered inputs, ordered outputs
(method.py lines 18-23). -/
structure Meth where
  id : ℕ
  inputs : List ℕ
  outputs : List ℕ
  deriving DecidableEq

/-- Embeds `MethodGraph` state (method.py lines 292-303): the `_map`
dictionary (its key set `vars`, with `map v = none` meaning `v` is absent or
stores `None`—the two are observationally merged because absent keys are never
read by the embedded operations), the `_methods` dictionary keys in insertion
order, and the `_changed` pending set. -/
structure MG where
  vars : Finset ℕ
  map : ℕ → Option Int
  methods : List Meth
  changed : Finset ℕ

/-- The empty method graph produced by `MethodGraph()`. -/
def emptyMG : MG := ⟨∅, fun _ => none, [], ∅⟩

/-- Embeds `MethodGraph.add_variable(varname, value)` (lines 315-320): a fresh
variable is entered with the given value (default `None`); an existing
variable is left untouched.  The pending set is not touched. -/
def MG.addVar (s : MG) (v : ℕ) (x : Option Int) : MG :=
  if v ∈ s.vars then s
  else { s with vars := insert v s.vars, map := Function.update s.map v x }

/-- The methods writing `v`: incoming neighbours of the variable vertex `v`,
i.e. methods with `v` among their outputs. -/
def writers (ms : List Meth) (v : ℕ) : List Meth :=
  ms.filter fun m => v ∈ m.outputs

/-- One-step successors of variable `v` through the bipartite graph: the union
of the outputs of every method that has `v` among its inputs. -/
def stepF (ms : List Meth) (v : ℕ) : Finset ℕ :=
  ms.foldr (fun m acc => if v ∈ m.inputs then m.outputs.toFinset ∪ acc else acc) ∅

/-- All variables that are the output of some method: every variable reachable
in at least one step lies in this set. -/
def outUniv (ms : List Meth) : Finset ℕ :=
  ms.foldr (fun m acc => m.outputs.toFinset ∪ acc) ∅

/-- One round of reachability expansion. -/
def fstep (ms : List Meth) (s : Finset ℕ) : Finset ℕ :=
  s ∪ s.biUnion (stepF ms)

/-- Variables reachable from `v` in at least one step, computed by iterating
`fstep` until the (provably reached) fixpoint. -/
def reachSet (ms : List Meth) (v : ℕ) : Finset ℕ :=
  (fstep ms)^[(outUniv ms).card] (stepF ms v)

/-- Modelled from the spec: `Graph.path(v, v)` (§6) is non-empty exactly when
a directed cycle passes through `v`; this is the executable test used by
`add_method`'s cycle check (method.py line 386). -/
def hasSelfPath (ms : List Meth) (v : ℕ) : Bool :=
  v ∈ reachSet ms v

/-- The exceptions raised by `add_method` (method.py lines 500-507). -/
inductive MGExn
  | determine
  | cycle
  deriving DecidableEq

/-- Embeds the validation loop of `add_method` (lines 379-390): for each
output variable in order, first the single-writer test
(`len(ingoing_vertices(var)) > 1`), then the cycle test
(`len(path(var, var)) != 0`). -/
def checkOutputs (ms : List Meth) : List ℕ → Option MGExn
  | [] => none
  | v :: rest =>
      if 1 < (writers ms v).length then some .determine
      else if hasSelfPath ms v then some .cycle
      else checkOutputs ms rest

/-- Embeds `MethodGraph.add_method` without the final propagation
(lines 359-394) together with the rollback `rem_method` (lines 396-403).
A known method is a no-op.  Otherwise the method is registered, its variables
are added, and the validation loop runs on the updated graph; on violation the
method is removed again (`rem_method` deletes the method vertex and its edges
but not the implicitly added variables) and the exception is raised with the
rolled-back state as payload. -/
def MG.addMethodR (s : MG) (m : Meth) : Except (MGExn × MG) MG :=
  if m ∈ s.methods then .ok s
  else
    let s1 : MG :=
      { (m.inputs ++ m.outputs).foldl (fun t v => t.addVar v none) s with
          methods := s.methods ++ [m] }
    match checkOutputs s1.methods m.outputs with
    | some e => .error (e, { s1 with methods := s1.methods.erase m })
    | none => .ok s1

/-- The exception component of an `add_method` outcome. -/
def exnOf : Except (MGExn × MG) MG → Option MGExn
  | .error (e, _) => some e
  | .ok _ => none

/-- The state in which an `add_method` outcome leaves the graph. -/
def stateOf : Except (MGExn × MG) MG → MG
  | .error (_, s) => s
  | .ok s => s

/-- The input map handed to `method.execute`: `_do_execute` builds it over the
method's inputs and outputs from the current store (lines 454-467); any other
key would raise `KeyError`, so the embedded map is `none` elsewhere. -/
def restrictMap (m : Meth) (f : ℕ → Option Int) : ℕ → Option Int :=
  fun v => if v ∈ m.inputs ∨ v ∈ m.outputs then f v else none

/-- Embeds the per-output update of `_do_execute` (lines 479-486): an output
present in the returned map is stored and marked changed; an absent output is
nulled, marking it changed only if it was previously non-null. -/
def writeOut (outmap : List (ℕ × Int)) (t : MG) (v : ℕ) : MG :=
  match outmap.lookup v with
  | some x =>
      { t with map := Function.update t.map v (some x), changed := insert v t.changed }
  | none =>
      if t.map v ≠ none then
        { t with map := Function.update t.map v none, changed := insert v t.changed }
      else t

/-- Embeds `MethodGraph._do_execute` (lines 445-491): skip the call when some
input is null (empty output map), update every output, then clear the change
flag of every input. -/
def doExecute (ex : Meth → (ℕ → Option Int) → List (ℕ × Int)) (m : Meth) (s : MG) : MG :=
  let outmap :=
    if m.inputs.any (fun v => (s.map v).isNone) then []
    else ex m (restrictMap m s.map)
  let s1 := m.outputs.foldl (writeOut outmap) s
  { s1 with changed := m.inputs.foldl (fun c v => c.erase v) s1.changed }

/-- One iteration of the `propagate` loop (lines 417-425), instrumented with
the list of executed method identities.  The source pops
`list(self._changed.keys())[0]`; the spec (§4.5) leaves the pick order to the
implementation, and the embedding deterministically picks the smallest pending
variable.  Every method with the pick among its inputs
(`outgoing_vertices(pick)`) is executed in graph order, then the pick is
discarded from the pending set if still present. -/
def propagateStepT (ex : Meth → (ℕ → Option Int) → List (ℕ × Int)) (s : MG) :
    MG × List ℕ :=
  match s.changed.min with
  | none => (s, [])
  | some pick =>
      let ms := s.methods.filter fun m => pick ∈ m.inputs
      let s1 := ms.foldl (fun t m => doExecute ex m t) s
      ({ s1 with changed := s1.changed.erase pick }, ms.map Meth.id)

/-- The state component of one `propagate` iteration. -/
def propagateStep (ex : Meth → (ℕ → Option Int) → List (ℕ × Int)) (s : MG) : MG :=
  (propagateStepT ex s).1

/-- Embeds the `propagate` loop (lines 405-425) with explicit fuel, collecting
the trace of executed method identities.  The loop exits when the pending set
is empty; exhausted fuel returns the state reached so far. -/
def propagateFuelT (ex : Meth → (ℕ → Option Int) → List (ℕ × Int)) :
    ℕ → MG → MG × List ℕ
  | 0, s => (s, [])
  | n + 1, s =>
      if s.changed = ∅ then (s, [])
      else
        let p := propagateStepT ex s
        let rest := propagateFuelT ex n p.1
        (rest.1, p.2 ++ rest.2)

/-- The state reached by `propagate` after at most `n` iterations. -/
def propagateFuel (ex : Meth → (ℕ → Option Int) → List (ℕ × Int))
    (n : ℕ) (s : MG) : MG :=
  (propagateFuelT ex n s).1

/-- Embeds a full `add_method(met, prop)` call (lines 359-394): a known method
returns immediately; a fresh method is validated, and on success with `prop`
set the method is executed and changes are propagated
(`self.execute(met)`, lines 433-443).  On violation the call leaves the
rolled-back state. -/
def MG.addMethodFull (ex : Meth → (ℕ → Option Int) → List (ℕ × Int))
    (fuel : ℕ) (s : MG) (m : Meth) (prop : Bool) : MG :=
  if m ∈ s.methods then s
  else
    match s.addMethodR m with
    | .error (_, s') => s'
    | .ok s' => if prop then propagateFuel ex fuel (doExecute ex m s') else s'

/-- A sequence of `add_method` calls applied to a starting graph; each entry
carries the method, the `prop` flag, and the propagation fuel. -/
def runAdds (ex : Meth → (ℕ → Option Int) → List (ℕ × Int))
    (calls : List (Meth × Bool × ℕ)) (s0 : MG) : MG :=
  calls.foldl (fun s c => MG.addMethodFull ex c.2.2 s c.1 c.2.1) s0

/-- A sequence of `add_method` calls applied to the empty graph. -/
def applyCalls (ex : Meth → (ℕ → Option Int) → List (ℕ × Int))
    (calls : List (Meth × Bool × ℕ)) : MG :=
  runAdds ex calls emptyMG

/-- The dataflow step relation on variables: `stepRel ms u w` holds when some
method reads `u` and writes `w` (a length-two path `u → m → w` in the
bipartite graph). -/
def stepRel (ms : List Meth) (u w : ℕ) : Prop :=
  ∃ m ∈ ms, u ∈ m.inputs ∧ w ∈ m.outputs

/-- The single-writer invariant: every variable is written by at most one
method. -/
def singleWriter (ms : List Meth) : Prop :=
  ∀ v, (writers ms v).length ≤ 1

/-- The acyclicity invariant: no variable lies on a directed cycle. -/
def acyclicMG (ms : List Meth) : Prop :=
  ∀ v, ¬ Relation.TransGen (stepRel ms) v v

/-- Rank of a variable: how many variables are reachable from it in at least
one step.  Under acyclicity the rank strictly drops along `stepRel`, which
drives the termination measure of `propagate`. -/
def rank (ms : List Meth) (v : ℕ) : ℕ :=
  (reachSet ms v).card

/-- Termination measure for `propagate`: a weighted count of the pending
variables, weighing each by an exponential of its rank. -/
def potential (s : MG) : ℕ :=
  s.changed.sum fun v => ((outUniv s.methods).card + 2) ^ rank s.methods v

/-- Embeds `AddMethod.execute` (method.py lines 62-79) as an `ex` oracle:
`c = a + b` when both inputs are present and non-null, else an empty map.
The `restrictMap` argument always contains the inputs, so only nullness
matters. -/
def addExec (m : Meth) (f : ℕ → Option Int) : List (ℕ × Int) :=
  match m.inputs, m.outputs with
  | [a, b], [c] =>
      match f a, f b with
      | some x, some y => [(c, x + y)]
      | _, _ => []
  | _, _ => []

/-- The S4 scenario methods over variables `a..e = 1..5`:
`AddMethod(a,b,c)`, `AddMethod(a,c,d)`, `AddMethod(b,d,e)`, and the rejected
`AddMethod(d,e,a)`. -/
def s4m1 : Meth := ⟨1, [1, 2], [3]⟩

/-- Second accepted S4 method, `AddMethod(a,c,d)`. -/
def s4m2 : Meth := ⟨2, [1, 3], [4]⟩

/-- Third accepted S4 method, `AddMethod(b,d,e)`. -/
def s4m3 : Meth := ⟨3, [2, 4], [5]⟩

/-- The rejected S4 method, `AddMethod(d,e,a)`. -/
def s4m4 : Meth := ⟨4, [4, 5], [1]⟩

/-- The S4 state: `a = 3`, `b = 4` (the test fixture's `add_variable` calls),
then the three accepted `AddMethod` calls with propagation. -/
def s4state : MG :=
  runAdds addExec [(s4m1, true, 8), (s4m2, true, 8), (s4m3, true, 8)]
    ((emptyMG.addVar 1 (some 3)).addVar 2 (some 4))

/-! ## Configurations (`solver/geometric/configuration.py`)

The 2-D geometry library (`solver/geometry.py`) is not among the sources.
Modelled from the spec (§6): `Vector` is a 2-D point; `make_hcs(p, q)` builds
a homogeneous coordinate system with origin `p` and x-axis pointing from `p`
to `q`; `cs_transform_matrix(from, to)` is the homogeneous transform mapping
frame `from` to frame `to`; `distance_2p` is the Euclidean distance; and
`Scalar.tol_zero` / `Scalar.tol_gt` compare against a fixed epsilon.  All
frames and transforms that arise here are rotation-plus-translation maps, so
they are represented by the structure `RT` below (rotation coefficients
`c`, `s` and translation `tx`, `ty`); applying one embeds the
multiply-then-dehomogenise step of `Configuration.transform`
(configuration.py lines 64-69), whose homogeneous coordinate is always 1. -/

/-- A 2-D point (the geometry library's `Vector`). -/
structure Vec where
  x : ℝ
  y : ℝ

instance : Sub Vec := ⟨fun p q => ⟨p.x - q.x, p.y - q.y⟩⟩

/-- Modelled from the spec: `Vector.length`, the Euclidean norm. -/
noncomputable def Vec.length (v : Vec) : ℝ :=
  Real.sqrt (v.x ^ 2 + v.y ^ 2)

/-- Modelled from the spec: `distance_2p`, the Euclidean distance. -/
noncomputable def distance_2p (p q : Vec) : ℝ :=
  Vec.length (p - q)

/-- Modelled from the spec: the fixed epsilon of `Scalar`. -/
noncomputable def tol : ℝ := 1 / 1000000

/-- Modelled from the spec: `Scalar.tol_zero(x)` holds when `x` is within
tolerance of zero. -/
noncomputable def tol_zero (x : ℝ) : Prop := |x| ≤ tol

/-- Modelled from the spec: `Scalar.tol_gt(x, y)` holds when `x` exceeds `y`
by more than the tolerance. -/
noncomputable def tol_gt (x y : ℝ) : Prop := y + tol < x

/-- A rotation-plus-translation map of the plane, standing for the 3×3
homogeneous matrices the source passes around:
`(x, y) ↦ (c·x − s·y + tx, s·x + c·y + ty)`. -/
structure RT where
  c : ℝ
  s : ℝ
  tx : ℝ
  ty : ℝ

/-- Apply a transform to a point; embeds the homogeneous
multiply-and-dehomogenise of `Configuration.transform` (lines 64-69). -/
def RT.apply (T : RT) (p : Vec) : Vec :=
  ⟨T.c * p.x - T.s * p.y + T.tx, T.s * p.x + T.c * p.y + T.ty⟩

/-- Matrix product of two transforms: `(A.comp B).apply p = A.apply (B.apply p)`. -/
def RT.comp (A B : RT) : RT :=
  ⟨A.c * B.c - A.s * B.s, A.s * B.c + A.c * B.s,
   A.c * B.tx - A.s * B.ty + A.tx, A.s * B.tx + A.c * B.ty + A.ty⟩

/-- Inverse of a transform, valid when the rotation part is orthonormal. -/
def RT.inv (A : RT) : RT :=
  ⟨A.c, -A.s, -(A.c * A.tx + A.s * A.ty), -(A.c * A.ty - A.s * A.tx)⟩

/-- A transform is a rigid motion (pure rotation plus translation) when its
rotation coefficients lie on the unit circle. -/
def RT.IsRigid (A : RT) : Prop := A.c ^ 2 + A.s ^ 2 = 1

/-- Modelled from the spec: `make_hcs(p, q)` — the frame with origin `p` whose
x-axis points from `p` towards `q` (unit axis obtained by normalising). -/
noncomputable def make_hcs (p q : Vec) : RT :=
  ⟨(q.x - p.x) / distance_2p q p, (q.y - p.y) / distance_2p q p, p.x, p.y⟩

/-- Modelled from the spec: `cs_transform_matrix(from, to)` — the transform
carrying frame `from` onto frame `to`. -/
noncomputable def cs_transform_matrix (f t : RT) : RT :=
  t.comp f.inv

/-- The canonical frame `make_hcs(Vector.origin(), Vector(1.0, 0.0))` used for
disjoint configurations (configuration.py lines 153-154). -/
noncomputable def hcs_origin : RT :=
  make_hcs ⟨0, 0⟩ ⟨1, 0⟩

/-- The one-point frame `make_hcs(p, p + Vector(1.0, 0.0))` used for a single
shared variable or a degenerate pair (lines 171-172, 193, 212). -/
noncomputable def hcs_x (p : Vec) : RT :=
  make_hcs p ⟨p.x + 1, p.y⟩

/-- Embeds `Configuration`: the variable set of the `mapping` dictionary and
the coordinate of each variable (`coord` is only meaningful on `dom`).  The
`underconstrained` flag plays no role in `__eq__` (which discards it,
line 253) and is not tracked. -/
structure Config where
  dom : Finset ℕ
  coord : ℕ → Vec

/-- Embeds `Configuration.transform` (lines 53-72): every coordinate is mapped
through the transform; the variable set is unchanged. -/
def Config.transform (C : Config) (T : RT) : Config :=
  ⟨C.dom, fun v => T.apply (C.coord v)⟩

/-- The first two variables of a shared set in iteration order.  The source
iterates `list(shared)[0]`, `list(shared)[1]` over a Python set, whose order
is arbitrary; the spec (§4.3, §9) requires a deterministic canonical order,
modelled here as ascending numeric order (the two smallest variables). -/
def firstTwo (s : Finset ℕ) : ℕ × ℕ :=
  match s.min with
  | none => (0, 0)
  | some v1 =>
      match (s.erase v1).min with
      | none => (v1, 0)
      | some v2 => (v1, v2)

/-- Embeds the two-or-more-shared-variables branch of
`Configuration.transformation_matrix` (lines 173-223): each side builds its
frame from the first two shared variables, falling back to the one-point frame
when its pair is within tolerance of coincident, and the result is
`cs_transform_matrix(cs2, cs1)`.  Stated as a relation because the degeneracy
test on real numbers is not decidable; the guards make it deterministic. -/
def TMtwo (a b : Config) (v1 v2 : ℕ) (t : RT) : Prop :=
  ∃ cs1 cs2 : RT,
    ((tol_zero (Vec.length (a.coord v2 - a.coord v1)) ∧ cs1 = hcs_x (a.coord v1)) ∨
      (¬ tol_zero (Vec.length (a.coord v2 - a.coord v1)) ∧
        cs1 = make_hcs (a.coord v1) (a.coord v2))) ∧
    ((tol_zero (Vec.length (b.coord v2 - b.coord v1)) ∧ cs2 = hcs_x (b.coord v1)) ∨
      (¬ tol_zero (Vec.length (b.coord v2 - b.coord v1)) ∧
        cs2 = make_hcs (b.coord v1) (b.coord v2))) ∧
    t = cs_transform_matrix cs2 cs1

/-- Embeds `Configuration.transformation_matrix` (lines 131-223) as a relation
between the two configurations and the produced transform (the
`underconstrained` output is discarded by `__eq__` and not tracked):
no shared variable → both sides use the canonical origin frame; exactly one
shared variable `v` → both sides use the one-point frame at `v`'s coordinate;
two or more → `TMtwo` on the first two shared variables. -/
def TM (a b : Config) (t : RT) : Prop :=
  (a.dom ∩ b.dom = ∅ ∧ t = cs_transform_matrix hcs_origin hcs_origin) ∨
  ((a.dom ∩ b.dom).card = 1 ∧ ∃ v, a.dom ∩ b.dom = {v} ∧
    t = cs_transform_matrix (hcs_x (b.coord v)) (hcs_x (a.coord v))) ∨
  (2 ≤ (a.dom ∩ b.dom).card ∧
    TMtwo a b (firstTwo (a.dom ∩ b.dom)).1 (firstTwo (a.dom ∩ b.dom)).2 t)

/-- Embeds `Configuration.__eq__` (lines 225-269).  The hash comparison and
the length/membership loops together amount to requiring equal variable-name
sets (the hash depends only on the name set, lines 271-277, so it never
separates configurations with equal variable sets); then the other
configuration is transformed by the matrix from `transformation_matrix` and
every variable's displacement must pass the tolerance test
`not (not tol_zero(d) and tol_gt(d, 0))`. -/
def Config.eqv (a b : Config) : Prop :=
  a.dom = b.dom ∧
    ∃ t, TM a b t ∧
      ∀ v ∈ a.dom,
        tol_zero (distance_2p ((b.transform t).coord v) (a.coord v)) ∨
          ¬ tol_gt (distance_2p ((b.transform t).coord v) (a.coord v)) 0

/-- The S1 configuration `c1 = {1: (0,0), 2: (1,0)}`. -/
def configS1 : Config :=
  ⟨{1, 2}, fun v => if v = 2 then ⟨1, 0⟩ else ⟨0, 0⟩⟩

/-- Rotation by 180 degrees about the origin: `c1.transform` of it is the S1
configuration `c3 = {1: (0,0), 2: (−1,0)}`. -/
def rot180 : RT := ⟨-1, 0, 0, 0⟩

/-- A near-degenerate configuration: two variables three quarters of a
tolerance apart. -/
noncomputable def configDegen : Config :=
  ⟨{1, 2}, fun v => if v = 2 then ⟨3 * tol / 4, 0⟩ else ⟨0, 0⟩⟩

/-- An execute oracle whose methods always return an empty output map
(the contract's "cannot produce outputs" case, method.py lines 25-35). -/
def nullExec : Meth → (ℕ → Option Int) → List (ℕ × Int) :=
  fun _ _ => []

/-- A method graph state exhibiting sibling-input clearing: variables 1..4 all
non-null, methods `m` (inputs 1 and 2, output 3) and the single-input method
of `c9reader` (input 2, output 4), with variables 1 and 2 pending. -/
def c9state : MG :=
  ⟨{1, 2, 3, 4}, fun v => if 1 ≤ v ∧ v ≤ 4 then some 0 else none,
    [⟨1, [1, 2], [3]⟩, ⟨2, [2], [4]⟩], {1, 2}⟩

/-- The method of `c9state` that reads variable 2 only. -/
def c9reader : Meth := ⟨2, [2], [4]⟩

/-- A small pending state with no methods, used to exercise propagation. -/
def c4state : MG :=
  ⟨{5}, fun _ => none, [], {5}⟩

/-! ## Theorems -/

/-- C1.  For every pair of clusters, `intersection` returns `None` when fewer
than two variables are shared; for a `Rigid` and a `Hedgehog` with centre `c`
and at least two shared variables, the result is
`Hedgehog(c, shared \ {c})` exactly when `c` lies in the rigid and at least
two shared variables other than `c` remain, else `None`; and on the S8
instance `intersect(Rigid({a,b,c,d}), Hedgehog(a, {b,c,e}))` (with
`a..e = 0..4`) the result is `Hedgehog(a, {b, c})`. -/
theorem c1_intersection :
    (∀ A B : Cluster, (A.vars ∩ B.vars).card < 2 → A.intersection B = none) ∧
    (∀ (s x : Finset ℕ) (c : ℕ),
        2 ≤ ((Cluster.rigid s).vars ∩ (Cluster.hedgehog c x).vars).card →
        (Cluster.rigid s).intersection (Cluster.hedgehog c x) =
          if c ∈ s ∧ 2 ≤ ((s ∩ (x ∪ {c})).erase c).card then
            some (Cluster.hedgehog c ((s ∩ (x ∪ {c})).erase c))
          else none) ∧
    (Cluster.rigid {0, 1, 2, 3}).intersection (Cluster.hedgehog 0 {1, 2, 4}) =
      some (Cluster.hedgehog 0 {1, 2}) := by
  refine ⟨fun A B h => ?_, fun s x c h => ?_, by decide⟩
  · simp only [Cluster.intersection]
    rw [if_pos h]
  · have h' : ¬ ((Cluster.rigid s).vars ∩ (Cluster.hedgehog c x).vars).card < 2 :=
      Nat.not_lt.mpr h
    simp only [Cluster.intersection]
    rw [if_neg h']
    rfl

/-- C1 witness: both hypothesised parts of `c1_intersection` evaluated on
concrete clusters. -/
theorem c1_intersection_witness :
    ((Cluster.rigid {0, 1}).vars ∩ (Cluster.rigid {7}).vars).card < 2 ∧
    (Cluster.rigid {0, 1}).intersection (Cluster.rigid {7}) = none ∧
    2 ≤ ((Cluster.rigid {0, 1, 2, 3}).vars ∩ (Cluster.hedgehog 0 {1, 2, 4}).vars).card ∧
    (Cluster.rigid {0, 1, 2, 3}).intersection (Cluster.hedgehog 0 {1, 2, 4}) =
      (if 0 ∈ ({0, 1, 2, 3} : Finset ℕ) ∧
          2 ≤ ((({0, 1, 2, 3} : Finset ℕ) ∩ ({1, 2, 4} ∪ {0})).erase 0).card then
        some (Cluster.hedgehog 0 ((({0, 1, 2, 3} : Finset ℕ) ∩ ({1, 2, 4} ∪ {0})).erase 0))
      else none) :=
  ⟨by decide, c1_intersection.1 _ _ (by decide), by decide,
    c1_intersection.2.1 _ _ _ (by decide)⟩

/-- C2.  `over_constraints` raises `NameError` on every call (here evaluated
at the S8 cluster pair): its body refers to module-level functions
`common_distances` and `common_angles` that do not exist, so it never returns
the union the specification describes. -/
theorem c2_over_constraints_raises :
    (Cluster.rigid {0, 1, 2, 3}).over_constraints (Cluster.hedgehog 0 {1, 2, 4}) =
      Except.error PyError.nameError :=
  rfl

/-- C7.  Evaluating the relation operations at `Distance('a','b')`-style
inputs: `hash(Distance(a, b))` raises `TypeError` (the stored points are
numpy arrays, which are unhashable), `Distance(a, b) == Distance(b, a)`
raises `TypeError` for the same reason, and only the apex-mismatch comparison
`Angle(a, b, c) == Angle(b, a, c)` returns (falsy) without raising. -/
theorem c7_relation_ops_raise :
    PRel.hash (.distance ⟨0⟩ ⟨1⟩) = .error .typeError ∧
    PRel.eq (.distance ⟨0⟩ ⟨1⟩) (.distance ⟨1⟩ ⟨0⟩) = .error .typeError ∧
    PRel.eq (.angle ⟨0⟩ ⟨1⟩ ⟨2⟩) (.angle ⟨1⟩ ⟨0⟩ ⟨2⟩) = .ok false ∧
    PRel.eq (.angle ⟨0⟩ ⟨1⟩ ⟨2⟩) (.angle ⟨2⟩ ⟨1⟩ ⟨0⟩) = .error .typeError :=
  ⟨rfl, rfl, rfl, rfl⟩

/-- C8.  `n_angles` on every `Rigid(S)` returns `3·C(|S|, 3)` without error,
but on a `Hedgehog` (here `Hedgehog(a, {b, c})`) it raises `NameError`
because the source spells the imported `binom` as `binomial`. -/
theorem c8_n_angles :
    (∀ s : Finset ℕ, (Cluster.rigid s).n_angles = .ok (3 * s.card.choose 3)) ∧
    (Cluster.hedgehog 0 {1, 2}).n_angles = .error .nameError :=
  ⟨fun _ => rfl, rfl⟩

/-- C10.  Every `SelectionConstraint` stores its variable list in the
instance attribute `variables`, shadowing the inherited `variables()` method,
so attribute lookup yields the plain list; consequently
`ConstraintGraph.add_constraint`, which calls `constraint.variables()`,
raises `TypeError` for every selection constraint not already registered and
never completes an addition. -/
theorem c10_selection_constraint_raises :
    (∀ (nm : String) (vs : List ℕ),
        lookupVariablesAttr (.selection nm vs) = .dataList vs) ∧
    (∀ (g : CGraph) (nm : String) (vs : List ℕ),
        ConstraintObj.selection nm vs ∉ g.constraints →
        g.addConstraint (.selection nm vs) =
          .error (.typeError,
            { g with constraints := g.constraints ++ [.selection nm vs] })) := by
  refine ⟨fun _ _ => rfl, fun g nm vs h => ?_⟩
  simp only [CGraph.addConstraint]
  rw [if_neg h]
  rfl

/-- C10 witness: adding `NotClockwiseConstraint('a','b','c')` (variables
`0, 1, 2`) to the empty constraint graph raises `TypeError`. -/
theorem c10_selection_constraint_raises_witness :
    notClockwiseConstraint 0 1 2 ∉ emptyCGraph.constraints ∧
    emptyCGraph.addConstraint (notClockwiseConstraint 0 1 2) =
      .error (.typeError,
        { emptyCGraph with
            constraints := emptyCGraph.constraints ++ [notClockwiseConstraint 0 1 2] }) :=
  ⟨by decide, c10_selection_constraint_raises.2 emptyCGraph _ _ (by decide)⟩

/-- Membership in the one-step successor set is the step relation. -/
theorem mem_stepF {ms : List Meth} {v w : ℕ} :
    w ∈ stepF ms v ↔ stepRel ms v w := by
  induction ms with
  | nil => simp [stepF, stepRel]
  | cons m ms ih =>
      simp only [stepF, List.foldr_cons] at *
      by_cases h : v ∈ m.inputs
      · simp only [if_pos h, Finset.mem_union, List.mem_toFinset, ih, stepRel,
          List.mem_cons]
        constructor
        · rintro (hw | ⟨m', hm', hv, hw⟩)
          · exact ⟨m, Or.inl rfl, h, hw⟩
          · exact ⟨m', Or.inr hm', hv, hw⟩
        · rintro ⟨m', (rfl | hm'), hv, hw⟩
          · exact Or.inl hw
          · exact Or.inr ⟨m', hm', hv, hw⟩
      · simp only [if_neg h, ih, stepRel, List.mem_cons]
        constructor
        · rintro ⟨m', hm', hv, hw⟩
          exact ⟨m', Or.inr hm', hv, hw⟩
        · rintro ⟨m', (rfl | hm'), hv, hw⟩
          · exact absurd hv h
          · exact ⟨m', hm', hv, hw⟩

/-- Every output of a listed method lies in the output universe. -/
theorem mem_outUniv {ms : List Meth} {m : Meth} {w : ℕ}
    (hm : m ∈ ms) (hw : w ∈ m.outputs) : w ∈ outUniv ms := by
  induction ms with
  | nil => cases hm
  | cons m' ms ih =>
      rcases List.mem_cons.mp hm with rfl | hm'
      · exact Finset.mem_union_left _ (List.mem_toFinset.mpr hw)
      · exact Finset.mem_union_right _ (ih hm')

/-- One-step successor sets live inside the output universe. -/
theorem stepF_subset_outUniv (ms : List Meth) (v : ℕ) :
    stepF ms v ⊆ outUniv ms := by
  intro w hw
  obtain ⟨m, hm, _, hout⟩ := mem_stepF.mp hw
  exact mem_outUniv hm hout

/-- The expansion step only grows a set. -/
theorem subset_fstep (ms : List Meth) (s : Finset ℕ) : s ⊆ fstep ms s :=
  Finset.subset_union_left

/-- Expansion keeps sets inside the output universe. -/
theorem fstep_subset_outUniv {ms : List Meth} {s : Finset ℕ}
    (h : s ⊆ outUniv ms) : fstep ms s ⊆ outUniv ms := by
  intro w hw
  rcases Finset.mem_union.mp hw with hw | hw
  · exact h hw
  · obtain ⟨x, _, hx⟩ := Finset.mem_biUnion.mp hw
    exact stepF_subset_outUniv ms x hx

/-- Iterated expansion keeps sets inside the output universe. -/
theorem iterate_fstep_subset_outUniv {ms : List Meth} {s : Finset ℕ}
    (h : s ⊆ outUniv ms) (n : ℕ) : (fstep ms)^[n] s ⊆ outUniv ms := by
  induction n generalizing s with
  | zero => simpa using h
  | succ n ih =>
      rw [Function.iterate_succ_apply]
      exact ih (fstep_subset_outUniv h)

/-- A set is contained in any of its expansion iterates. -/
theorem subset_iterate_fstep (ms : List Meth) (s : Finset ℕ) (n : ℕ) :
    s ⊆ (fstep ms)^[n] s := by
  induction n generalizing s with
  | zero => simp
  | succ n ih =>
      rw [Function.iterate_succ_apply]
      exact (subset_fstep ms s).trans (ih (fstep ms s))

/-- After as many expansion rounds as the output universe has elements, the
iterate is a fixpoint of the expansion step. -/
theorem fstep_iterate_fixed {ms : List Meth} {s : Finset ℕ}
    (h : s ⊆ outUniv ms) :
    fstep ms ((fstep ms)^[(outUniv ms).card] s) =
      (fstep ms)^[(outUniv ms).card] s := by
  set N := (outUniv ms).card with hN
  by_contra hfix
  have hne : ∀ k ≤ N, (fstep ms)^[k] s ≠ (fstep ms)^[k + 1] s := by
    intro k hk hkfix
    have hfixk : fstep ms ((fstep ms)^[k] s) = (fstep ms)^[k] s :=
      (Function.iterate_succ_apply' _ _ _).symm.trans hkfix.symm
    have : ∀ j, (fstep ms)^[k + j] s = (fstep ms)^[k] s := by
      intro j
      rw [Nat.add_comm, Function.iterate_add_apply]
      exact Function.iterate_fixed hfixk j
    apply hfix
    calc fstep ms ((fstep ms)^[N] s)
        = (fstep ms)^[N + 1] s := (Function.iterate_succ_apply' _ _ _).symm
      _ = (fstep ms)^[k + (N + 1 - k)] s := by
          congr 1
          omega
      _ = (fstep ms)^[k] s := this _
      _ = (fstep ms)^[k + (N - k)] s := (this _).symm
      _ = (fstep ms)^[N] s := by
          congr 1
          omega
  have hgrow : ∀ j ≤ N + 1, s.card + j ≤ ((fstep ms)^[j] s).card := by
    intro j hj
    induction j with
    | zero => simp
    | succ j ihj =>
        have hjN : j ≤ N := by omega
        have hsub : (fstep ms)^[j] s ⊆ (fstep ms)^[j + 1] s := by
          rw [Function.iterate_succ_apply']
          exact subset_fstep ms _
        have hlt : ((fstep ms)^[j] s).card < ((fstep ms)^[j + 1] s).card :=
          Finset.card_lt_card (Finset.ssubset_iff_subset_ne.mpr
            ⟨hsub, hne j hjN⟩)
        have := ihj (by omega)
        omega
  have h1 : s.card + (N + 1) ≤ ((fstep ms)^[N + 1] s).card := hgrow (N + 1) le_rfl
  have h2 : ((fstep ms)^[N + 1] s).card ≤ N :=
    hN ▸ Finset.card_le_card (iterate_fstep_subset_outUniv h (N + 1))
  omega

/-- The reach set absorbs further steps: it is closed under the step
relation. -/
theorem reachSet_closed {ms : List Meth} {v w u : ℕ}
    (hw : w ∈ reachSet ms v) (hstep : stepRel ms w u) : u ∈ reachSet ms v := by
  have hfix := fstep_iterate_fixed (stepF_subset_outUniv ms v)
  have : u ∈ fstep ms (reachSet ms v) := by
    refine Finset.mem_union_right _ (Finset.mem_biUnion.mpr ⟨w, hw, ?_⟩)
    exact mem_stepF.mpr hstep
  rwa [reachSet, hfix] at this

/-- Completeness: whatever is step-reachable is in the reach set. -/
theorem mem_reachSet_of_transGen {ms : List Meth} {v w : ℕ}
    (h : Relation.TransGen (stepRel ms) v w) : w ∈ reachSet ms v := by
  induction h with
  | single h1 =>
      exact subset_iterate_fstep ms _ _ (mem_stepF.mpr h1)
  | tail _ hstep ih => exact reachSet_closed ih hstep

/-- Soundness: everything in the reach set is step-reachable. -/
theorem transGen_of_mem_reachSet {ms : List Meth} {v w : ℕ}
    (h : w ∈ reachSet ms v) : Relation.TransGen (stepRel ms) v w := by
  have aux : ∀ (n : ℕ) (s : Finset ℕ),
      (∀ x ∈ s, Relation.TransGen (stepRel ms) v x) →
      ∀ w ∈ (fstep ms)^[n] s, Relation.TransGen (stepRel ms) v w := by
    intro n
    induction n with
    | zero => intro s hs w hw; exact hs w (by simpa using hw)
    | succ n ih =>
        intro s hs w hw
        rw [Function.iterate_succ_apply] at hw
        refine ih (fstep ms s) ?_ w hw
        intro x hx
        rcases Finset.mem_union.mp hx with hx | hx
        · exact hs x hx
        · obtain ⟨y, hy, hxy⟩ := Finset.mem_biUnion.mp hx
          exact (hs y hy).tail (mem_stepF.mp hxy)
  refine aux _ _ ?_ w h
  intro x hx
  exact Relation.TransGen.single (mem_stepF.mp hx)

/-- The executable cycle test agrees with the step-reachability relation. -/
theorem hasSelfPath_iff {ms : List Meth} {v : ℕ} :
    hasSelfPath ms v = true ↔ Relation.TransGen (stepRel ms) v v := by
  constructor
  · intro h
    exact transGen_of_mem_reachSet (by simpa [hasSelfPath] using h)
  · intro h
    simpa [hasSelfPath] using mem_reachSet_of_transGen h

/-- The step relation over an extended method list splits into the old
relation and steps through the new method. -/
theorem stepRel_append {ms : List Meth} {m : Meth} {u w : ℕ} :
    stepRel (ms ++ [m]) u w ↔ stepRel ms u w ∨ (u ∈ m.inputs ∧ w ∈ m.outputs) := by
  constructor
  · rintro ⟨m', hm', hu, hw⟩
    rcases List.mem_append.mp hm' with hm' | hm'
    · exact Or.inl ⟨m', hm', hu, hw⟩
    · rcases List.mem_singleton.mp hm' with rfl
      exact Or.inr ⟨hu, hw⟩
  · rintro (⟨m', hm', hu, hw⟩ | ⟨hu, hw⟩)
    · exact ⟨m', List.mem_append_left _ hm', hu, hw⟩
    · exact ⟨m, List.mem_append_right _ (List.mem_singleton.mpr rfl), hu, hw⟩

/-- Decompose a transitive chain over a union of two relations: either the
chain uses only the first relation, or it crosses some edge of the second,
with reflexive-transitive tails on both sides. -/
theorem transGen_decompose {α : Type} {r rm r' : α → α → Prop}
    (hsplit : ∀ u w, r' u w → r u w ∨ rm u w) {a b : α}
    (h : Relation.TransGen r' a b) :
    Relation.TransGen r a b ∨
      ∃ u w, rm u w ∧ Relation.ReflTransGen r' a u ∧ Relation.ReflTransGen r' w b := by
  induction h with
  | single h1 =>
      rcases hsplit _ _ h1 with h1' | h1'
      · exact Or.inl (Relation.TransGen.single h1')
      · exact Or.inr ⟨_, _, h1', Relation.ReflTransGen.refl, Relation.ReflTransGen.refl⟩
  | tail hab hbc ih =>
      rcases hsplit _ _ hbc with hbc' | hbc'
      · rcases ih with ih | ⟨u, w, hm, hau, hwb⟩
        · exact Or.inl (ih.tail hbc')
        · exact Or.inr ⟨u, w, hm, hau, hwb.tail hbc⟩
      · exact Or.inr ⟨_, _, hbc', hab.to_reflTransGen, Relation.ReflTransGen.refl⟩

/-- A `none` result of the validation loop certifies both tests on every
output variable. -/
theorem checkOutputs_none {ms : List Meth} {outs : List ℕ}
    (h : checkOutputs ms outs = none) :
    ∀ v ∈ outs, (writers ms v).length ≤ 1 ∧ hasSelfPath ms v = false := by
  induction outs with
  | nil => intro v hv; cases hv
  | cons v rest ih =>
      intro w hw
      by_cases h1 : 1 < (writers ms v).length
      · simp [checkOutputs, h1] at h
      · by_cases h2 : hasSelfPath ms v
        · simp [checkOutputs, h1, h2] at h
        · rcases List.mem_cons.mp hw with rfl | hw'
          · exact ⟨Nat.not_lt.mp h1, Bool.not_eq_true _ ▸ (by simpa using h2)⟩
          · have : checkOutputs ms rest = none := by
              simpa [checkOutputs, h1, h2] using h
            exact ih this w hw'

/-- Appending a method preserves the single-writer invariant when the
validation loop accepted it. -/
theorem singleWriter_extend {ms : List Meth} {m : Meth}
    (hsw : singleWriter ms)
    (hchk : checkOutputs (ms ++ [m]) m.outputs = none) :
    singleWriter (ms ++ [m]) := by
  intro v
  by_cases hv : v ∈ m.outputs
  · exact (checkOutputs_none hchk v hv).1
  · have : writers (ms ++ [m]) v = writers ms v := by
      simp [writers, List.filter_append, hv]
    rw [this]
    exact hsw v

/-- Appending a method preserves acyclicity when the validation loop accepted
it: any new cycle would have to cross the new method and hence close a cycle
through one of its outputs, which the loop ruled out. -/
theorem acyclic_extend {ms : List Meth} {m : Meth}
    (hac : acyclicMG ms)
    (hchk : checkOutputs (ms ++ [m]) m.outputs = none) :
    acyclicMG (ms ++ [m]) := by
  intro v hv
  have hsplit : ∀ u w, stepRel (ms ++ [m]) u w →
      stepRel ms u w ∨ (u ∈ m.inputs ∧ w ∈ m.outputs) :=
    fun u w h => stepRel_append.mp h
  rcases transGen_decompose hsplit hv with hold | ⟨u, w, ⟨hu, hw⟩, hvu, hwv⟩
  · exact hac v hold
  · have hcyc : Relation.TransGen (stepRel (ms ++ [m])) w w := by
      refine Relation.TransGen.tail' (hwv.trans hvu) ?_
      exact stepRel_append.mpr (Or.inr ⟨hu, hw⟩)
    have hfalse := (checkOutputs_none hchk w hw).2
    have htrue := hasSelfPath_iff.mpr hcyc
    rw [htrue] at hfalse
    cases hfalse

/-- The implicit `add_variable` calls of `add_method` leave methods, the
pending set and the values of existing variables untouched, and only grow
the variable set. -/
theorem addVars_fold_spec (l : List ℕ) (s : MG) :
    (l.foldl (fun t v => t.addVar v none) s).methods = s.methods ∧
    (l.foldl (fun t v => t.addVar v none) s).changed = s.changed ∧
    s.vars ⊆ (l.foldl (fun t v => t.addVar v none) s).vars ∧
    ∀ v ∈ s.vars, (l.foldl (fun t v => t.addVar v none) s).map v = s.map v := by
  induction l generalizing s with
  | nil => exact ⟨rfl, rfl, Finset.Subset.refl _, fun v _ => rfl⟩
  | cons a l ih =>
      have hstep : (s.addVar a none).methods = s.methods ∧
          (s.addVar a none).changed = s.changed ∧
          s.vars ⊆ (s.addVar a none).vars ∧
          ∀ v ∈ s.vars, (s.addVar a none).map v = s.map v := by
        by_cases ha : a ∈ s.vars
        · simp [MG.addVar, ha, Finset.Subset.refl]
        · refine ⟨by simp [MG.addVar, ha], by simp [MG.addVar, ha], ?_, ?_⟩
          · simp only [MG.addVar, if_neg ha]
            exact Finset.subset_insert _ _
          · intro v hv
            have hne : v ≠ a := fun h => ha (h ▸ hv)
            simp [MG.addVar, ha, Function.update_noteq hne]
      obtain ⟨h1, h2, h3, h4⟩ := ih (s.addVar a none)
      refine ⟨?_, ?_, ?_, ?_⟩
      · simpa [h1] using hstep.1
      · simpa [h2] using hstep.2.1
      · exact hstep.2.2.1.trans h3
      · intro v hv
        have hv' : v ∈ (s.addVar a none).vars := hstep.2.2.1 hv
        rw [List.foldl_cons, h4 v hv', hstep.2.2.2 v hv]

/-- Erasing a freshly appended element recovers the original list. -/
theorem erase_append_singleton {m : Meth} {l : List Meth} (h : m ∉ l) :
    (l ++ [m]).erase m = l := by
  induction l with
  | nil => simp
  | cons a l ih =>
      have hne : a ≠ m := fun he => h (he ▸ List.mem_cons_self a l)
      have h' : m ∉ l := fun hm => h (List.mem_cons_of_mem _ hm)
      rw [List.cons_append, List.erase_cons_tail, ih h']
      simp [hne]

/-- A raising `add_method` call rolls the method back: the method list, the
pending set and the values of pre-existing variables are unchanged, and the
variable set only grows (implicitly added variables remain). -/
theorem addMethodR_error_spec {s : MG} {m : Meth} {e : MGExn} {s' : MG}
    (h : s.addMethodR m = .error (e, s')) :
    s'.methods = s.methods ∧ s'.changed = s.changed ∧
      (∀ v ∈ s.vars, s'.map v = s.map v) ∧ s.vars ⊆ s'.vars := by
  by_cases hm : m ∈ s.methods
  · simp [MG.addMethodR, hm] at h
  · obtain ⟨h1, h2, h3, h4⟩ :=
      addVars_fold_spec (m.inputs ++ m.outputs) s
    simp only [MG.addMethodR, if_neg hm] at h
    set s1 : MG :=
      { (m.inputs ++ m.outputs).foldl (fun t v => t.addVar v none) s with
          methods := s.methods ++ [m] } with hs1
    rcases hchk : checkOutputs s1.methods m.outputs with _ | e'
    · rw [hchk] at h
      cases h
    · rw [hchk] at h
      cases h
      refine ⟨?_, ?_, ?_, ?_⟩
      · show s1.methods.erase m = s.methods
        have : s1.methods = s.methods ++ [m] := rfl
        rw [this, erase_append_singleton hm]
      · exact h2
      · exact h4
      · exact h3

/-- An accepting `add_method` call appends the method and certifies the
validation loop. -/
theorem addMethodR_ok_spec {s : MG} {m : Meth} {s' : MG}
    (hm : m ∉ s.methods) (h : s.addMethodR m = .ok s') :
    s'.methods = s.methods ++ [m] ∧
      checkOutputs (s.methods ++ [m]) m.outputs = none := by
  obtain ⟨h1, _, _, _⟩ := addVars_fold_spec (m.inputs ++ m.outputs) s
  simp only [MG.addMethodR, if_neg hm] at h
  set s1 : MG :=
    { (m.inputs ++ m.outputs).foldl (fun t v => t.addVar v none) s with
        methods := s.methods ++ [m] } with hs1
  rcases hchk : checkOutputs s1.methods m.outputs with _ | e'
  · rw [hchk] at h
    have hs : s1 = s' := by injection h
    subst hs
    exact ⟨rfl, rfl⟩
  · rw [hchk] at h
    cases h

/-- Writing one output touches only the value map and the pending set. -/
theorem writeOut_methods (outmap : List (ℕ × Int)) (t : MG) (v : ℕ) :
    (writeOut outmap t v).methods = t.methods := by
  unfold writeOut
  rcases outmap.lookup v with _ | x
  · by_cases h : t.map v ≠ none <;> simp [h]
  · rfl

/-- Executing a method does not touch the method list. -/
theorem doExecute_methods (ex : Meth → (ℕ → Option Int) → List (ℕ × Int))
    (m : Meth) (s : MG) : (doExecute ex m s).methods = s.methods := by
  unfold doExecute
  have : ∀ (l : List ℕ) (t : MG) (om : List (ℕ × Int)),
      (l.foldl (writeOut om) t).methods = t.methods := by
    intro l
    induction l with
    | nil => intro t om; rfl
    | cons a l ih =>
        intro t om
        rw [List.foldl_cons, ih, writeOut_methods]
  simp [this]

/-- A list of executions does not touch the method list. -/
theorem foldExec_methods (ex : Meth → (ℕ → Option Int) → List (ℕ × Int))
    (L : List Meth) (s : MG) :
    (L.foldl (fun t m => doExecute ex m t) s).methods = s.methods := by
  induction L generalizing s with
  | nil => rfl
  | cons a L ih => rw [List.foldl_cons, ih, doExecute_methods]

/-- One propagation iteration does not touch the method list. -/
theorem propagateStep_methods (ex : Meth → (ℕ → Option Int) → List (ℕ × Int))
    (s : MG) : (propagateStep ex s).methods = s.methods := by
  unfold propagateStep propagateStepT
  cases hmin : s.changed.min with
  | top => simp only [hmin]
  | coe pick =>
      simp only [hmin]
      exact foldExec_methods ex _ s

/-- Propagation does not touch the method list. -/
theorem propagateFuel_methods (ex : Meth → (ℕ → Option Int) → List (ℕ × Int))
    (n : ℕ) (s : MG) : (propagateFuel ex n s).methods = s.methods := by
  induction n generalizing s with
  | zero => rfl
  | succ n ih =>
      show (propagateFuelT ex (n + 1) s).1.methods = s.methods
      unfold propagateFuelT
      by_cases h : s.changed = ∅
      · simp [h]
      · simp only [if_neg h]
        have := ih (propagateStepT ex s).1
        calc (propagateFuelT ex n (propagateStepT ex s).1).1.methods
            = (propagateStepT ex s).1.methods := this
          _ = s.methods := propagateStep_methods ex s

/-- The empty method list has no multiple writers. -/
theorem singleWriter_nil : singleWriter ([] : List Meth) := by
  intro v
  simp [writers]

/-- The empty method list is acyclic. -/
theorem acyclicMG_nil : acyclicMG ([] : List Meth) := by
  intro v h
  cases h with
  | single h1 => obtain ⟨m, hm, -⟩ := h1; cases hm
  | tail _ h1 => obtain ⟨m, hm, -⟩ := h1; cases hm

/-- One full `add_method` call preserves both structural invariants. -/
theorem addMethodFull_inv (ex : Meth → (ℕ → Option Int) → List (ℕ × Int))
    (fuel : ℕ) (s : MG) (m : Meth) (prop : Bool)
    (h1 : singleWriter s.methods) (h2 : acyclicMG s.methods) :
    singleWriter (MG.addMethodFull ex fuel s m prop).methods ∧
      acyclicMG (MG.addMethodFull ex fuel s m prop).methods := by
  unfold MG.addMethodFull
  by_cases hm : m ∈ s.methods
  · rw [if_pos hm]
    exact ⟨h1, h2⟩
  · rw [if_neg hm]
    cases hres : s.addMethodR m with
    | error p =>
        obtain ⟨e, s'⟩ := p
        obtain ⟨hmeq, -, -, -⟩ := addMethodR_error_spec hres
        simp only [hmeq]
        exact ⟨h1, h2⟩
    | ok s' =>
        obtain ⟨hmeq, hchk⟩ := addMethodR_ok_spec hm hres
        have hsw : singleWriter s'.methods := by
          rw [hmeq]; exact singleWriter_extend h1 hchk
        have hac : acyclicMG s'.methods := by
          rw [hmeq]; exact acyclic_extend h2 hchk
        by_cases hprop : prop
        · simp only [hprop, if_true]
          rw [propagateFuel_methods, doExecute_methods]
          exact ⟨hsw, hac⟩
        · simp only [hprop, if_false]
          exact ⟨hsw, hac⟩

/-- C3.  After any sequence of `add_method` calls on the empty method graph
(rejected calls raising and rolling back), the graph satisfies the
single-writer invariant (every variable is the output of at most one method)
and the acyclicity invariant (no variable has a directed path back to
itself). -/
theorem c3_add_method_invariants
    (ex : Meth → (ℕ → Option Int) → List (ℕ × Int))
    (calls : List (Meth × Bool × ℕ)) :
    singleWriter (applyCalls ex calls).methods ∧
      acyclicMG (applyCalls ex calls).methods := by
  suffices h : ∀ (cs : List (Meth × Bool × ℕ)) (s : MG),
      singleWriter s.methods → acyclicMG s.methods →
      singleWriter (runAdds ex cs s).methods ∧
        acyclicMG (runAdds ex cs s).methods by
    exact h calls emptyMG singleWriter_nil acyclicMG_nil
  intro cs
  induction cs with
  | nil => intro s hsw hac; exact ⟨hsw, hac⟩
  | cons c rest ih =>
      intro s hsw hac
      obtain ⟨hsw', hac'⟩ := addMethodFull_inv ex c.2.2 s c.1 c.2.1 hsw hac
      exact ih _ hsw' hac'

/-- C5 counterexample.  `add_method(AddMethod(a, b, a))` on the empty method
graph (variables `a, b = 0, 1`, a method whose output is also an input) is
rejected with the cycle exception, but it does *not* leave the graph
unchanged: the implicitly added variables `0` and `1` survive the rollback,
so the variable set differs from the empty graph's. -/
theorem c5_rollback_counterexample :
    exnOf (emptyMG.addMethodR ⟨0, [0, 1], [0]⟩) = some MGExn.cycle ∧
      (stateOf (emptyMG.addMethodR ⟨0, [0, 1], [0]⟩)).vars ≠ emptyMG.vars := by
  exact ⟨by decide, by decide⟩

/-- C5 (amended).  A raising `add_method` call rolls the attempted method
back before the exception propagates: the method list, the pending set and
the values of pre-existing variables are unchanged, and only implicitly added
variables may remain.  In the S4 scenario — `AddMethod(a,b,c)`,
`AddMethod(a,c,d)`, `AddMethod(b,d,e)` accepted on a graph with `a = 3`,
`b = 4` — the call `AddMethod(d,e,a)` is rejected with the cycle exception
and, since all its variables pre-exist, leaves every observable component of
the graph unchanged. -/
theorem c5_rollback_amended :
    (∀ (s : MG) (m : Meth) (e : MGExn) (s' : MG),
        s.addMethodR m = .error (e, s') →
        s'.methods = s.methods ∧ s'.changed = s.changed ∧
          (∀ v ∈ s.vars, s'.map v = s.map v) ∧ s.vars ⊆ s'.vars) ∧
    s4state.methods = [s4m1, s4m2, s4m3] ∧
    exnOf (s4state.addMethodR s4m4) = some MGExn.cycle ∧
    (stateOf (s4state.addMethodR s4m4)).vars = s4state.vars ∧
    (stateOf (s4state.addMethodR s4m4)).methods = s4state.methods ∧
    (stateOf (s4state.addMethodR s4m4)).changed = s4state.changed ∧
    ∀ v, (stateOf (s4state.addMethodR s4m4)).map v = s4state.map v := by
  refine ⟨fun s m e s' h => addMethodR_error_spec h, by decide, by decide, by decide,
    by decide, by decide, fun _ => rfl⟩

/-- C5 witness: the general rollback clause of `c5_rollback_amended` applied
to the concrete rejected call of the counterexample scenario. -/
theorem c5_rollback_amended_witness :
    emptyMG.addMethodR ⟨0, [0, 1], [0]⟩ =
      .error (MGExn.cycle, stateOf (emptyMG.addMethodR ⟨0, [0, 1], [0]⟩)) ∧
    ((stateOf (emptyMG.addMethodR ⟨0, [0, 1], [0]⟩)).methods = emptyMG.methods ∧
      (stateOf (emptyMG.addMethodR ⟨0, [0, 1], [0]⟩)).changed = emptyMG.changed ∧
      (∀ v ∈ emptyMG.vars,
        (stateOf (emptyMG.addMethodR ⟨0, [0, 1], [0]⟩)).map v = emptyMG.map v) ∧
      emptyMG.vars ⊆ (stateOf (emptyMG.addMethodR ⟨0, [0, 1], [0]⟩)).vars) := by
  have h : emptyMG.addMethodR ⟨0, [0, 1], [0]⟩ =
      .error (MGExn.cycle, stateOf (emptyMG.addMethodR ⟨0, [0, 1], [0]⟩)) := rfl
  exact ⟨h, c5_rollback_amended.1 emptyMG ⟨0, [0, 1], [0]⟩ MGExn.cycle _ h⟩

/-- C9 counterexample.  In `c9state`, variable `2` is pending and is an input
of the method with identity `2`, yet a full run of `propagate` (which ends
with an empty pending set, so `2` was removed) executes only the method with
identity `1`: executing that method cleared its sibling input `2` from the
pending set before the other reader ever ran — so a variable does not always
stay pending until all methods reading it have been executed. -/
theorem c9_pending_removal_counterexample :
    2 ∈ c9state.changed ∧ c9reader ∈ c9state.methods ∧ 2 ∈ c9reader.inputs ∧
      (propagateFuelT nullExec 3 c9state).1.changed = ∅ ∧
      (propagateFuelT nullExec 3 c9state).2 = [1] ∧
      c9reader.id ∉ (propagateFuelT nullExec 3 c9state).2 := by
  exact ⟨by decide, by decide, by decide, by decide, by decide, by decide⟩

/-- C9 (amended).  Within one iteration of `propagate`, the *picked* pending
variable is removed only after every method that has it as an input has been
executed in that iteration; but (per the counterexample) other variables may
be cleared from the pending set as soon as any single method reading them
runs. -/
theorem c9_pending_removal_amended
    (ex : Meth → (ℕ → Option Int) → List (ℕ × Int)) (s : MG) (v : ℕ)
    (hv : s.changed.min = some v) :
    (∀ m ∈ s.methods, v ∈ m.inputs → m.id ∈ (propagateStepT ex s).2) ∧
      v ∉ (propagateStepT ex s).1.changed := by
  unfold propagateStepT
  rw [hv]
  constructor
  · intro m hm hvm
    exact List.mem_map_of_mem Meth.id (List.mem_filter.mpr ⟨hm, by simpa using hvm⟩)
  · exact Finset.not_mem_erase _ _

/-- C9 witness: the amended per-iteration guarantee evaluated on `c9state`,
whose smallest pending variable is `1`. -/
theorem c9_pending_removal_amended_witness :
    c9state.changed.min = some 1 ∧
      ((∀ m ∈ c9state.methods, 1 ∈ m.inputs →
          m.id ∈ (propagateStepT nullExec c9state).2) ∧
        1 ∉ (propagateStepT nullExec c9state).1.changed) :=
  ⟨by decide, c9_pending_removal_amended nullExec c9state 1 (by decide)⟩

/-- Under acyclicity the rank strictly decreases along a dataflow step. -/
theorem rank_lt_of_stepRel {ms : List Meth} {v w : ℕ}
    (hac : acyclicMG ms) (h : stepRel ms v w) : rank ms w < rank ms v := by
  have hsub : reachSet ms w ⊆ reachSet ms v := by
    intro u hu
    exact mem_reachSet_of_transGen
      (Relation.TransGen.head h (transGen_of_mem_reachSet hu))
  have hwv : w ∈ reachSet ms v :=
    mem_reachSet_of_transGen (Relation.TransGen.single h)
  have hww : w ∉ reachSet ms w := fun hmem => hac w (transGen_of_mem_reachSet hmem)
  exact Finset.card_lt_card (Finset.ssubset_iff_of_subset hsub |>.mpr ⟨w, hwv, hww⟩)

/-- Writing one output can only add that output to the pending set. -/
theorem writeOut_changed (outmap : List (ℕ × Int)) (t : MG) (v : ℕ) :
    (writeOut outmap t v).changed ⊆ insert v t.changed := by
  unfold writeOut
  rcases outmap.lookup v with _ | x
  · by_cases h : t.map v ≠ none
    · simp [h]
    · simp only [h, if_false]
      exact Finset.subset_insert _ _
  · simp

/-- The output-writing loop adds only outputs to the pending set. -/
theorem foldWrite_changed (om : List (ℕ × Int)) (l : List ℕ) (t : MG) :
    (l.foldl (writeOut om) t).changed ⊆ t.changed ∪ l.toFinset := by
  induction l generalizing t with
  | nil => simp
  | cons a l ih =>
      rw [List.foldl_cons]
      refine (ih (writeOut om t a)).trans ?_
      intro w hw
      rcases Finset.mem_union.mp hw with hw | hw
      · have := writeOut_changed om t a hw
        rcases Finset.mem_insert.mp this with rfl | hw'
        · simp
        · exact Finset.mem_union_left _ hw'
      · simp [hw]

/-- Clearing flags only removes pending variables. -/
theorem foldErase_subset (l : List ℕ) (c : Finset ℕ) :
    l.foldl (fun c v => c.erase v) c ⊆ c := by
  induction l generalizing c with
  | nil => simp
  | cons a l ih => exact (ih (c.erase a)).trans (Finset.erase_subset _ _)

/-- A single method execution adds only that method's outputs to the pending
set. -/
theorem doExecute_changed (ex : Meth → (ℕ → Option Int) → List (ℕ × Int))
    (m : Meth) (s : MG) :
    (doExecute ex m s).changed ⊆ s.changed ∪ m.outputs.toFinset := by
  unfold doExecute
  refine (foldErase_subset _ _).trans ?_
  exact foldWrite_changed _ _ _

/-- A list of method executions adds only their outputs to the pending set. -/
theorem foldExec_changed (ex : Meth → (ℕ → Option Int) → List (ℕ × Int))
    (L : List Meth) (s : MG) (X : Finset ℕ)
    (hX : ∀ m ∈ L, m.outputs.toFinset ⊆ X) :
    (L.foldl (fun t m => doExecute ex m t) s).changed ⊆ s.changed ∪ X := by
  induction L generalizing s with
  | nil => simp
  | cons a L ih =>
      rw [List.foldl_cons]
      refine (ih (doExecute ex a s) fun m hm => hX m (List.mem_cons_of_mem _ hm)).trans ?_
      intro w hw
      rcases Finset.mem_union.mp hw with hw | hw
      · have := doExecute_changed ex a s hw
        rcases Finset.mem_union.mp this with hw' | hw'
        · exact Finset.mem_union_left _ hw'
        · exact Finset.mem_union_right _ (hX a (List.mem_cons_self _ _) hw')
      · exact Finset.mem_union_right _ hw

/-- After one propagation iteration the pending set is contained in the old
pending set without the pick, plus the one-step successors of the pick. -/
theorem propagateStep_changed (ex : Meth → (ℕ → Option Int) → List (ℕ × Int))
    {s : MG} {pick : ℕ} (hmin : s.changed.min = some pick) :
    (propagateStep ex s).changed ⊆
      s.changed.erase pick ∪ stepF s.methods pick := by
  unfold propagateStep propagateStepT
  rw [hmin]
  simp only
  have hbound : (List.foldl (fun t m => doExecute ex m t) s
      (s.methods.filter fun m => pick ∈ m.inputs)).changed ⊆
      s.changed ∪ stepF s.methods pick := by
    refine foldExec_changed ex _ s _ ?_
    intro m hm w hw
    obtain ⟨hm', hpm⟩ := List.mem_filter.mp hm
    exact mem_stepF.mpr ⟨m, hm', by simpa using hpm, List.mem_toFinset.mp hw⟩
  intro w hw
  have hw' := Finset.mem_of_mem_erase hw
  have hne := Finset.ne_of_mem_erase hw
  rcases Finset.mem_union.mp (hbound hw') with hw'' | hw''
  · exact Finset.mem_union_left _ (Finset.mem_erase.mpr ⟨hne, hw''⟩)
  · exact Finset.mem_union_right _ hw''

/-- The potential strictly decreases on every propagation iteration taken
from a non-empty pending set of an acyclic graph. -/
theorem potential_decreases (ex : Meth → (ℕ → Option Int) → List (ℕ × Int))
    {s : MG} (hac : acyclicMG s.methods) (hne : s.changed ≠ ∅) :
    potential (propagateStep ex s) < potential s := by
  rcases hmin : s.changed.min with _ | pick
  · exact absurd (Finset.min_eq_top.mp hmin) hne
  · have hp : pick ∈ s.changed := Finset.mem_of_min hmin
    have hpot : potential (propagateStep ex s) =
        (propagateStep ex s).changed.sum
          (fun v => ((outUniv s.methods).card + 2) ^ rank s.methods v) := by
      unfold potential
      rw [propagateStep_methods]
    have hle1 : potential (propagateStep ex s) ≤
        (s.changed.erase pick ∪ stepF s.methods pick).sum
          (fun v => ((outUniv s.methods).card + 2) ^ rank s.methods v) := by
      rw [hpot]
      exact Finset.sum_le_sum_of_subset (propagateStep_changed ex hmin)
    have hle2 : (s.changed.erase pick ∪ stepF s.methods pick).sum
          (fun v => ((outUniv s.methods).card + 2) ^ rank s.methods v) ≤
        (s.changed.erase pick).sum
          (fun v => ((outUniv s.methods).card + 2) ^ rank s.methods v) +
          (stepF s.methods pick).sum
            (fun v => ((outUniv s.methods).card + 2) ^ rank s.methods v) := by
      rw [← Finset.union_sdiff_self_eq_union, Finset.sum_union Finset.disjoint_sdiff]
      exact Nat.add_le_add_left
        (Finset.sum_le_sum_of_subset Finset.sdiff_subset) _
    have herase : (s.changed.erase pick).sum
          (fun v => ((outUniv s.methods).card + 2) ^ rank s.methods v) +
          ((outUniv s.methods).card + 2) ^ rank s.methods pick =
        potential s :=
      Finset.sum_erase_add s.changed _ hp
    have hB : (stepF s.methods pick).sum
          (fun v => ((outUniv s.methods).card + 2) ^ rank s.methods v) <
        ((outUniv s.methods).card + 2) ^ rank s.methods pick := by
      rcases Nat.eq_zero_or_pos (rank s.methods pick) with hr0 | hrpos
      · have hBempty : stepF s.methods pick = ∅ := by
          by_contra hne2
          obtain ⟨w, hw⟩ := Finset.nonempty_iff_ne_empty.mpr hne2
          have := rank_lt_of_stepRel hac (mem_stepF.mp hw)
          omega
        rw [hBempty, hr0]
        simp
      · obtain ⟨j, hj⟩ : ∃ j, rank s.methods pick = j + 1 :=
          ⟨rank s.methods pick - 1, by omega⟩
        have hterm : ∀ w ∈ stepF s.methods pick,
            ((outUniv s.methods).card + 2) ^ rank s.methods w ≤
              ((outUniv s.methods).card + 2) ^ j := by
          intro w hw
          have := rank_lt_of_stepRel hac (mem_stepF.mp hw)
          exact Nat.pow_le_pow_right (by omega) (by omega)
        have hsum := Finset.sum_le_card_nsmul _ _ _ hterm
        have hcard : (stepF s.methods pick).card ≤ (outUniv s.methods).card :=
          Finset.card_le_card (stepF_subset_outUniv s.methods pick)
        have hpow : 0 < ((outUniv s.methods).card + 2) ^ j :=
          pow_pos (by omega) _
        have hmul : (outUniv s.methods).card *
              ((outUniv s.methods).card + 2) ^ j <
            ((outUniv s.methods).card + 2) *
              ((outUniv s.methods).card + 2) ^ j :=
          mul_lt_mul_of_pos_right (by omega) hpow
        have hCj : ((outUniv s.methods).card + 2) ^ (j + 1) =
            ((outUniv s.methods).card + 2) *
              ((outUniv s.methods).card + 2) ^ j := by
          ring
        rw [hj, hCj]
        have hsum2 : (stepF s.methods pick).sum
              (fun v => ((outUniv s.methods).card + 2) ^ rank s.methods v) ≤
            (stepF s.methods pick).card *
              ((outUniv s.methods).card + 2) ^ j := by
          simpa using hsum
        have hsum3 : (stepF s.methods pick).card *
              ((outUniv s.methods).card + 2) ^ j ≤
            (outUniv s.methods).card * ((outUniv s.methods).card + 2) ^ j :=
          Nat.mul_le_mul_right _ hcard
        omega
    omega

/-- With fuel exceeding the potential, `propagate` reaches the empty pending
set. -/
theorem propagate_fuel_sufficient
    (ex : Meth → (ℕ → Option Int) → List (ℕ × Int)) :
    ∀ (k : ℕ) (s : MG), acyclicMG s.methods → potential s ≤ k →
      (propagateFuel ex (k + 1) s).changed = ∅ := by
  intro k
  induction k with
  | zero =>
      intro s hac hpot
      by_cases hch : s.changed = ∅
      · show (propagateFuelT ex 1 s).1.changed = ∅
        unfold propagateFuelT
        rw [if_pos hch]
        exact hch
      · exfalso
        obtain ⟨w, hw⟩ := Finset.nonempty_iff_ne_empty.mpr hch
        have h1 : 0 < ((outUniv s.methods).card + 2) ^ rank s.methods w :=
          pow_pos (by omega) _
        have h2 : ((outUniv s.methods).card + 2) ^ rank s.methods w ≤
            s.changed.sum
              (fun v => ((outUniv s.methods).card + 2) ^ rank s.methods v) :=
          Finset.single_le_sum
            (f := fun v => ((outUniv s.methods).card + 2) ^ rank s.methods v)
            (fun i _ => Nat.zero_le _) hw
        have h3 : potential s = s.changed.sum
            (fun v => ((outUniv s.methods).card + 2) ^ rank s.methods v) := rfl
        omega
  | succ k ih =>
      intro s hac hpot
      by_cases hch : s.changed = ∅
      · show (propagateFuelT ex (k + 2) s).1.changed = ∅
        unfold propagateFuelT
        rw [if_pos hch]
        exact hch
      · have hdec := potential_decreases ex hac hch
        have hac2 : acyclicMG (propagateStep ex s).methods := by
          rw [propagateStep_methods]
          exact hac
        have := ih (propagateStep ex s) hac2 (by omega)
        show (propagateFuelT ex (k + 2) s).1.changed = ∅
        unfold propagateFuelT
        rw [if_neg hch]
        exact this

/-- C4.  On every method graph satisfying the acyclicity invariant,
`propagate()` terminates (some finite fuel reaches the loop's exit), and on
return the pending-change set is empty. -/
theorem c4_propagate_terminates
    (ex : Meth → (ℕ → Option Int) → List (ℕ × Int)) (s : MG)
    (hac : acyclicMG s.methods) :
    ∃ n, (propagateFuel ex n s).changed = ∅ :=
  ⟨potential s + 1, propagate_fuel_sufficient ex (potential s) s hac le_rfl⟩

/-- C4 witness: the termination theorem applied to the concrete pending state
`c4state`, whose method list is empty and therefore acyclic. -/
theorem c4_propagate_terminates_witness :
    acyclicMG c4state.methods ∧
      ∃ n, (propagateFuel nullExec n c4state).changed = ∅ :=
  ⟨acyclicMG_nil, c4_propagate_terminates nullExec c4state acyclicMG_nil⟩

/-- Componentwise description of vector subtraction. -/
theorem Vec.sub_def (p q : Vec) : p - q = ⟨p.x - q.x, p.y - q.y⟩ := rfl

/-- The tolerance is positive. -/
theorem tol_pos : 0 < tol := by norm_num [tol]

/-- Zero is within tolerance of zero. -/
theorem tol_zero_zero : tol_zero 0 := by
  simp only [tol_zero, abs_zero]
  exact le_of_lt tol_pos

/-- The distance from a point to itself is zero. -/
theorem distance_2p_self (p : Vec) : distance_2p p p = 0 := by
  simp [distance_2p, Vec.sub_def, Vec.length, Real.sqrt_zero]

/-- The per-variable tolerance test of `__eq__` passes at distance zero. -/
theorem passCheck_self (p : Vec) :
    tol_zero (distance_2p p p) ∨ ¬ tol_gt (distance_2p p p) 0 :=
  Or.inl (distance_2p_self p ▸ tol_zero_zero)

/-- Composition of transforms is composition of their actions. -/
theorem RT.comp_apply (A B : RT) (p : Vec) :
    (A.comp B).apply p = A.apply (B.apply p) := by
  simp only [RT.comp, RT.apply, Vec.mk.injEq]
  constructor <;> ring

/-- Rigidity is preserved by composition. -/
theorem RT.isRigid_comp {A B : RT} (hA : A.IsRigid) (hB : B.IsRigid) :
    (A.comp B).IsRigid := by
  simp only [RT.IsRigid, RT.comp] at *
  linear_combination (B.c ^ 2 + B.s ^ 2) * hA + hB

/-- The inverse undoes a rigid transform on the left. -/
theorem RT.inv_apply_apply {A : RT} (hA : A.IsRigid) (p : Vec) :
    A.inv.apply (A.apply p) = p := by
  simp only [RT.IsRigid] at hA
  obtain ⟨px, py⟩ := p
  simp only [RT.inv, RT.apply, Vec.mk.injEq]
  constructor
  · linear_combination px * hA
  · linear_combination py * hA

/-- The inverse undoes a rigid transform on the right. -/
theorem RT.apply_inv_apply {A : RT} (hA : A.IsRigid) (p : Vec) :
    A.apply (A.inv.apply p) = p := by
  simp only [RT.IsRigid] at hA
  obtain ⟨px, py⟩ := p
  simp only [RT.inv, RT.apply, Vec.mk.injEq]
  constructor
  · linear_combination (px - A.tx) * hA
  · linear_combination (py - A.ty) * hA

/-- Rigid transforms act injectively. -/
theorem RT.apply_injective {A : RT} (hA : A.IsRigid) {p q : Vec}
    (h : A.apply p = A.apply q) : p = q := by
  have := congrArg A.inv.apply h
  rwa [RT.inv_apply_apply hA, RT.inv_apply_apply hA] at this

/-- Rigid transforms preserve lengths of differences. -/
theorem length_apply_sub {T : RT} (hT : T.IsRigid) (p q : Vec) :
    Vec.length (T.apply p - T.apply q) = Vec.length (p - q) := by
  simp only [RT.IsRigid] at hT
  simp only [Vec.length, RT.apply, Vec.sub_def]
  congr 1
  linear_combination ((p.x - q.x) ^ 2 + (p.y - q.y) ^ 2) * hT

/-- Rigid transforms preserve point distances. -/
theorem distance_2p_apply {T : RT} (hT : T.IsRigid) (p q : Vec) :
    distance_2p (T.apply p) (T.apply q) = distance_2p p q :=
  length_apply_sub hT p q

/-- The built frame transforms covariantly under a rigid motion. -/
theorem make_hcs_apply {T : RT} (hT : T.IsRigid) (p q : Vec) :
    make_hcs (T.apply p) (T.apply q) = T.comp (make_hcs p q) := by
  have hd : distance_2p (T.apply q) (T.apply p) = distance_2p q p :=
    distance_2p_apply hT q p
  simp only [make_hcs]
  rw [hd]
  simp only [RT.comp, RT.apply, RT.mk.injEq]
  exact ⟨by ring, by ring, trivial, trivial⟩

/-- A frame built on two distinct points is rigid. -/
theorem isRigid_make_hcs {p q : Vec} (h : distance_2p q p ≠ 0) :
    (make_hcs p q).IsRigid := by
  have hd2 : distance_2p q p ^ 2 = (q.x - p.x) ^ 2 + (q.y - p.y) ^ 2 := by
    simp only [distance_2p, Vec.length, Vec.sub_def]
    exact Real.sq_sqrt (by positivity)
  simp only [RT.IsRigid, make_hcs]
  field_simp
  linarith [hd2]

/-- The one-point frame in closed form. -/
theorem hcs_x_eq (p : Vec) : hcs_x p = ⟨1, 0, p.x, p.y⟩ := by
  have hd : distance_2p ⟨p.x + 1, p.y⟩ p = 1 := by
    simp only [distance_2p, Vec.length, Vec.sub_def]
    have h1 : (p.x + 1 - p.x) ^ 2 + (p.y - p.y) ^ 2 = 1 := by ring
    rw [h1, Real.sqrt_one]
  simp only [hcs_x, make_hcs, hd, RT.mk.injEq]
  norm_num

/-- Aligning two one-point frames moves the second base point onto the
first. -/
theorem hcs_x_cancel (p q : Vec) :
    (cs_transform_matrix (hcs_x q) (hcs_x p)).apply q = p := by
  obtain ⟨px, py⟩ := p
  obtain ⟨qx, qy⟩ := q
  simp only [cs_transform_matrix, hcs_x_eq, RT.inv, RT.comp, RT.apply,
    Vec.mk.injEq]
  constructor <;> ring

/-- The transform aligning a rigidly moved frame with the original one undoes
the rigid motion. -/
theorem cs_transform_cancel {T A : RT} (hT : T.IsRigid) (hA : A.IsRigid)
    (p : Vec) : (cs_transform_matrix (T.comp A) A).apply (T.apply p) = p := by
  have hB : (T.comp A).IsRigid := RT.isRigid_comp hT hA
  have h1 : (T.comp A).apply (A.inv.apply p) = T.apply p := by
    rw [RT.comp_apply, RT.apply_inv_apply hA]
  have h2 : (T.comp A).inv.apply (T.apply p) = A.inv.apply p := by
    rw [← h1, RT.inv_apply_apply hB]
  simp only [cs_transform_matrix]
  rw [RT.comp_apply, h2, RT.apply_inv_apply hA]

/-- C6 (amended).  For every configuration `C` and every rotation-translation
`T`, `C == C.transform(T)` holds provided `C` has at most one variable or the
frame-defining pair of shared variables (the first two in canonical order) is
separated by more than the tolerance; in particular it holds for the S1
configuration `{1: (0,0), 2: (1,0)}` under a 180-degree rotation (see the
witness). -/
theorem c6_rigid_motion_amended (C : Config) (T : RT) (hT : T.IsRigid)
    (hcond : C.dom.card ≤ 1 ∨
      ¬ tol_zero (Vec.length
        (C.coord (firstTwo C.dom).2 - C.coord (firstTwo C.dom).1))) :
    Config.eqv C (C.transform T) := by
  have hsh : C.dom ∩ (C.transform T).dom = C.dom := Finset.inter_self _
  refine ⟨rfl, ?_⟩
  rcases Nat.lt_or_ge C.dom.card 2 with hlt | hge
  · by_cases h0 : C.dom.card = 0
    · have hempty : C.dom = ∅ := Finset.card_eq_zero.mp h0
      refine ⟨cs_transform_matrix hcs_origin hcs_origin, ?_, ?_⟩
      · unfold TM
        exact Or.inl ⟨by rw [hsh, hempty], rfl⟩
      · intro v hv
        rw [hempty] at hv
        cases hv
    · have h1 : C.dom.card = 1 := by omega
      obtain ⟨v, hv⟩ := Finset.card_eq_one.mp h1
      refine ⟨cs_transform_matrix (hcs_x ((C.transform T).coord v))
        (hcs_x (C.coord v)), ?_, ?_⟩
      · unfold TM
        refine Or.inr (Or.inl ⟨by rw [hsh]; exact h1, v, by rw [hsh]; exact hv, rfl⟩)
      · intro w hw
        have hwv : w = v := by
          rw [hv] at hw
          exact Finset.mem_singleton.mp hw
        subst hwv
        have hbc : ((C.transform T).transform
            (cs_transform_matrix (hcs_x ((C.transform T).coord w))
              (hcs_x (C.coord w)))).coord w = C.coord w :=
          hcs_x_cancel (C.coord w) (T.apply (C.coord w))
        rw [hbc]
        exact passCheck_self _
  · have hcnd : ¬ tol_zero (Vec.length
        (C.coord (firstTwo C.dom).2 - C.coord (firstTwo C.dom).1)) := by
      rcases hcond with h | h
      · omega
      · exact h
    have hd0 : distance_2p (C.coord (firstTwo C.dom).2)
        (C.coord (firstTwo C.dom).1) ≠ 0 := by
      intro h0
      apply hcnd
      have hlen : Vec.length
          (C.coord (firstTwo C.dom).2 - C.coord (firstTwo C.dom).1) = 0 := h0
      unfold tol_zero
      rw [hlen, abs_zero]
      exact le_of_lt tol_pos
    have hcs1 : (make_hcs (C.coord (firstTwo C.dom).1)
        (C.coord (firstTwo C.dom).2)).IsRigid := isRigid_make_hcs hd0
    have hnd2 : ¬ tol_zero (Vec.length
        ((C.transform T).coord (firstTwo C.dom).2 -
          (C.transform T).coord (firstTwo C.dom).1)) := by
      show ¬ tol_zero (Vec.length
        (T.apply (C.coord (firstTwo C.dom).2) -
          T.apply (C.coord (firstTwo C.dom).1)))
      rw [length_apply_sub hT]
      exact hcnd
    have hcs2eq : make_hcs ((C.transform T).coord (firstTwo C.dom).1)
        ((C.transform T).coord (firstTwo C.dom).2) =
        T.comp (make_hcs (C.coord (firstTwo C.dom).1)
          (C.coord (firstTwo C.dom).2)) :=
      make_hcs_apply hT _ _
    refine ⟨cs_transform_matrix
        (T.comp (make_hcs (C.coord (firstTwo C.dom).1)
          (C.coord (firstTwo C.dom).2)))
        (make_hcs (C.coord (firstTwo C.dom).1) (C.coord (firstTwo C.dom).2)),
      ?_, ?_⟩
    · unfold TM
      refine Or.inr (Or.inr ⟨by rw [hsh]; exact hge, ?_⟩)
      unfold TMtwo
      rw [hsh]
      exact ⟨make_hcs (C.coord (firstTwo C.dom).1) (C.coord (firstTwo C.dom).2),
        T.comp (make_hcs (C.coord (firstTwo C.dom).1)
          (C.coord (firstTwo C.dom).2)),
        Or.inr ⟨hcnd, rfl⟩, Or.inr ⟨hnd2, hcs2eq.symm⟩, rfl⟩
    · intro w hw
      have hbw : ((C.transform T).transform
          (cs_transform_matrix
            (T.comp (make_hcs (C.coord (firstTwo C.dom).1)
              (C.coord (firstTwo C.dom).2)))
            (make_hcs (C.coord (firstTwo C.dom).1)
              (C.coord (firstTwo C.dom).2)))).coord w = C.coord w :=
        cs_transform_cancel hT hcs1 (C.coord w)
      rw [hbw]
      exact passCheck_self _

/-- The length of a horizontal vector. -/
theorem length_x (a : ℝ) : Vec.length ⟨a, 0⟩ = |a| := by
  have h : a ^ 2 + (0 : ℝ) ^ 2 = a ^ 2 := by ring
  simp only [Vec.length, h]
  exact Real.sqrt_sq_eq_abs a

/-- C6 witness: the amended equality theorem evaluated on the S1 instance
`c1 = {1: (0,0), 2: (1,0)}` under the 180-degree rotation, whose transform is
`c3 = {1: (0,0), 2: (−1,0)}`. -/
theorem c6_rigid_motion_amended_witness :
    rot180.IsRigid ∧
      (configS1.dom.card ≤ 1 ∨
        ¬ tol_zero (Vec.length (configS1.coord (firstTwo configS1.dom).2 -
          configS1.coord (firstTwo configS1.dom).1))) ∧
      Config.eqv configS1 (configS1.transform rot180) := by
  have hT : rot180.IsRigid := by norm_num [rot180, RT.IsRigid]
  have hft : firstTwo configS1.dom = (1, 2) := by decide
  have hlen : Vec.length (configS1.coord (firstTwo configS1.dom).2 -
      configS1.coord (firstTwo configS1.dom).1) = 1 := by
    rw [hft]
    have h1 : configS1.coord 2 - configS1.coord 1 = ⟨1, 0⟩ := by
      show (⟨1, 0⟩ : Vec) - ⟨0, 0⟩ = ⟨1, 0⟩
      rw [Vec.sub_def]
      norm_num
    rw [h1, length_x]
    norm_num
  have hcond : configS1.dom.card ≤ 1 ∨
      ¬ tol_zero (Vec.length (configS1.coord (firstTwo configS1.dom).2 -
        configS1.coord (firstTwo configS1.dom).1)) := by
    refine Or.inr ?_
    unfold tol_zero
    rw [hlen]
    norm_num [tol]
  exact ⟨hT, hcond, c6_rigid_motion_amended configS1 rot180 hT hcond⟩

/-- C6 counterexample.  The 180-degree rotation is a rigid motion, yet the
near-degenerate configuration `{1: (0,0), 2: (3·tol/4, 0)}` does not equal
its own rotated copy: both frame pairs fall within tolerance of coincident,
so the alignment is the identity and variable 2 lands `3·tol/2` away from
its original coordinate, which fails the tolerance test.  The claim's
universally quantified rigid-motion invariance is therefore false. -/
theorem c6_rigid_motion_counterexample :
    rot180.IsRigid ∧
      ¬ Config.eqv configDegen (configDegen.transform rot180) := by
  refine ⟨by norm_num [rot180, RT.IsRigid], ?_⟩
  rintro ⟨-, t, hTM, hcheck⟩
  have hc1 : configDegen.coord 1 = ⟨0, 0⟩ := rfl
  have hc2 : configDegen.coord 2 = ⟨3 * tol / 4, 0⟩ := rfl
  have hb1 : (configDegen.transform rot180).coord 1 = ⟨0, 0⟩ := by
    show rot180.apply (configDegen.coord 1) = ⟨0, 0⟩
    rw [hc1]
    simp only [rot180, RT.apply]
    norm_num
  have hb2 : (configDegen.transform rot180).coord 2 = ⟨-(3 * tol / 4), 0⟩ := by
    show rot180.apply (configDegen.coord 2) = ⟨-(3 * tol / 4), 0⟩
    rw [hc2]
    simp only [rot180, RT.apply]
    norm_num
  have hinter : configDegen.dom ∩ (configDegen.transform rot180).dom =
      configDegen.dom := Finset.inter_self _
  have htolA : tol_zero (Vec.length (configDegen.coord 2 - configDegen.coord 1)) := by
    rw [hc1, hc2, Vec.sub_def]
    have h1 : Vec.length ⟨3 * tol / 4 - 0, 0 - 0⟩ = |3 * tol / 4| := by
      have h2 : (⟨3 * tol / 4 - 0, 0 - 0⟩ : Vec) = ⟨3 * tol / 4, 0⟩ := by norm_num
      rw [h2, length_x]
    unfold tol_zero
    rw [h1, abs_abs, abs_of_nonneg (show (0:ℝ) ≤ 3 * tol / 4 by norm_num [tol])]
    norm_num [tol]
  have htolB : tol_zero (Vec.length ((configDegen.transform rot180).coord 2 -
      (configDegen.transform rot180).coord 1)) := by
    rw [hb1, hb2, Vec.sub_def]
    have h1 : (⟨-(3 * tol / 4) - 0, 0 - 0⟩ : Vec) = ⟨-(3 * tol / 4), 0⟩ := by norm_num
    unfold tol_zero
    rw [h1, length_x, abs_neg, abs_abs,
      abs_of_nonneg (show (0:ℝ) ≤ 3 * tol / 4 by norm_num [tol])]
    norm_num [tol]
  unfold TM at hTM
  rcases hTM with ⟨hdz, -⟩ | ⟨hdc, -⟩ | ⟨-, htwo⟩
  · rw [hinter] at hdz
    exact absurd hdz (by decide)
  · rw [hinter] at hdc
    exact absurd hdc (by decide)
  · rw [hinter] at htwo
    have hft : firstTwo configDegen.dom = (1, 2) := by decide
    rw [hft] at htwo
    unfold TMtwo at htwo
    obtain ⟨cs1, cs2, hcs1, hcs2, ht⟩ := htwo
    have hcs1v : cs1 = hcs_x (configDegen.coord 1) := by
      rcases hcs1 with ⟨-, h⟩ | ⟨h, -⟩
      · exact h
      · exact absurd htolA h
    have hcs2v : cs2 = hcs_x ((configDegen.transform rot180).coord 1) := by
      rcases hcs2 with ⟨-, h⟩ | ⟨h, -⟩
      · exact h
      · exact absurd htolB h
    have htv : t = ⟨1, 0, 0, 0⟩ := by
      rw [ht, hcs1v, hcs2v, hc1, hb1, hcs_x_eq]
      simp only [cs_transform_matrix, RT.comp, RT.inv]
      norm_num
    have hchk2 := hcheck 2 (by decide)
    have hdist : distance_2p (((configDegen.transform rot180).transform t).coord 2)
        (configDegen.coord 2) = 3 * tol / 2 := by
      have hbt : ((configDegen.transform rot180).transform t).coord 2 =
          t.apply ((configDegen.transform rot180).coord 2) := rfl
      rw [hbt, hb2, htv, hc2]
      simp only [RT.apply, distance_2p, Vec.sub_def]
      have h1 : (⟨1 * -(3 * tol / 4) - 0 * 0 + 0 - 3 * tol / 4,
          0 * -(3 * tol / 4) + 1 * 0 + 0 - 0⟩ : Vec) = ⟨-(3 * tol / 2), 0⟩ := by
        norm_num
        ring
      rw [h1, length_x]
      norm_num [tol]
    rcases hchk2 with h | h
    · unfold tol_zero at h
      rw [hdist, abs_of_nonneg (show (0:ℝ) ≤ 3 * tol / 2 by norm_num [tol])] at h
      norm_num [tol] at h
    · apply h
      unfold tol_gt
      rw [hdist]
      norm_num [tol]
